import Mathlib

/-!
# Indexed min-queue (`minqueue.h`): shallow embedding and verification

The C++ class `minqueue<TKey, TValue>` keeps three fields: the vector `heap`
of `Data` records, the ordered map `positionMap` from keys to slots, and the
counter `size`.  The embedding below keeps the three fields, models the
vector as a list (an access beyond its length is a `Fault.outOfBounds`), the
map as a function into `Option Nat` (extensionally what a `std::map` is), and
the 32-bit indices as natural numbers (the development is about queues of
fewer than `2^31` slots, where no index computation wraps).
-/

set_option linter.unusedSectionVars false
set_option linter.unusedVariables false

namespace Minqueue

/-- What can go wrong below the public interface: an access outside the
vector, or a loop model that was given too little fuel. -/
inductive Fault where
  | outOfBounds
  | outOfFuel
  deriving DecidableEq, Repr

/-- The record `struct Data` : a key with its value. -/
structure Data (K V : Type) where
  key : K
  value : V
  deriving DecidableEq, Repr

/-- The three private fields of the class. -/
structure minqueue (K V : Type) where
  heap : List (Data K V)
  positionMap : K → Option Nat
  size : Nat

/-- Outcome of a public member function: normal return with the resulting
state, a thrown `logic_error` with the state at the throw, or a fault. -/
inductive Result (K V α : Type) where
  | ok (a : α) (q : minqueue K V)
  | logicError (q : minqueue K V)
  | fault (f : Fault)

section Code

variable {K V : Type} [LinearOrder K] [LinearOrder V] [Inhabited K] [Inhabited V]

instance : Inhabited (Data K V) := ⟨⟨default, default⟩⟩

/-- The comparison of lines 78-79: smaller value, or equal values and
smaller key. -/
def less (a b : Data K V) : Prop :=
  a.value < b.value ∨ (a.value = b.value ∧ a.key < b.key)

instance (a b : Data K V) : Decidable (less a b) := by
  unfold less; infer_instance

/-- The method `vector::resize` : truncate, or pad with value-initialised
records. -/
def resize (l : List (Data K V)) (n : Nat) : List (Data K V) :=
  l.take n ++ List.replicate (n - l.length) default

/-- The method `swap` (lines 47-54): the three assignments on the vector,
then the two map writes, each reading the vector as it then is. -/
def swap (q : minqueue K V) (index1 index2 : Nat) : Except Fault (minqueue K V) :=
  match q.heap[index1]? with
  | none => .error .outOfBounds
  | some temp =>
    match q.heap[index2]? with
    | none => .error .outOfBounds
    | some d2 =>
      let heap1 := q.heap.set index1 d2
      let heap2 := heap1.set index2 temp
      match heap2[index1]? with
      | none => .error .outOfBounds
      | some a =>
        let map1 := Function.update q.positionMap a.key (some index1)
        match heap2[index2]? with
        | none => .error .outOfBounds
        | some b =>
          .ok { heap := heap2, positionMap := Function.update map1 b.key (some index2),
                size := q.size }

/-- The test `index < 0 || index >= size || positionMap.find(heap[probe].key) == end`
that `getIndexMin` repeats four times; `probe` is the slot whose key is looked
up (line 65 looks up `index1` while testing `index2`).  The disjunction
short-circuits, so the vector is read only when `index < size`. -/
def noElement (q : minqueue K V) (index probe : Nat) : Except Fault Bool :=
  if q.size ≤ index then .ok true
  else
    match q.heap[probe]? with
    | none => .error .outOfBounds
    | some d => .ok (q.positionMap d.key).isNone

/-- The method `getIndexMin` (lines 59-87); the result is the C++ `int`,
`-1` for "no minimal element". -/
def getIndexMin (q : minqueue K V) (index1 index2 : Nat) : Except Fault Int :=
  match noElement q index1 index1 with
  | .error e => .error e
  | .ok true =>
    match noElement q index2 index1 with
    | .error e => .error e
    | .ok true => .ok (-1)
    | .ok false => .ok index2
  | .ok false =>
    match noElement q index2 index2 with
    | .error e => .error e
    | .ok true =>
      match noElement q index1 index1 with
      | .error e => .error e
      | .ok true => .ok (-1)
      | .ok false => .ok index1
    | .ok false =>
      match q.heap[index1]?, q.heap[index2]? with
      | some a, some b => if less a b then .ok index1 else .ok index2
      | _, _ => .error .outOfBounds

/-- The loop of `slideUp` (lines 94-101).  `parentIndex` is recomputed from
`index` at each round, as the loop does; `(index - 1) / 2` is the same number
in C++ `int` arithmetic and in `Nat` (both give `0` at `index = 0`), and
`parentIndex >= 0` always holds. -/
def slideUpLoop : Nat → minqueue K V → Nat → Except Fault (minqueue K V)
  | 0, _, _ => .error .outOfFuel
  | fuel + 1, q, index =>
    let parentIndex := (index - 1) / 2
    if 0 < index then
      match getIndexMin q index parentIndex with
      | .error e => .error e
      | .ok m =>
        if m = (index : Int) then
          match swap q index parentIndex with
          | .error e => .error e
          | .ok q1 => slideUpLoop fuel q1 parentIndex
        else .ok q
    else .ok q

/-- The method `slideUp` : the index at least halves at each round, so
`index + 1` rounds of fuel are never used up. -/
def slideUp (q : minqueue K V) (index : Nat) : Except Fault (minqueue K V) :=
  slideUpLoop (index + 1) q index

/-- The loop of `slideDown` (lines 110-123).  The loop variable
`minChildIndex` always holds `getIndexMin(2*index+1, 2*index+2)` of the
current state when the loop test runs, so each round starts by computing it. -/
def slideDownLoop : Nat → minqueue K V → Nat → Except Fault (minqueue K V)
  | 0, _, _ => .error .outOfFuel
  | fuel + 1, q, index =>
    match getIndexMin q (index * 2 + 1) (index * 2 + 2) with
    | .error e => .error e
    | .ok minChildIndex =>
      if index < q.size ∧ minChildIndex ≠ -1 then
        match getIndexMin q index minChildIndex.toNat with
        | .error e => .error e
        | .ok m =>
          if m = minChildIndex then
            match swap q index minChildIndex.toNat with
            | .error e => .error e
            | .ok q1 => slideDownLoop fuel q1 minChildIndex.toNat
          else .ok q
      else .ok q

/-- The method `slideDown` : the index strictly grows and stays below `size`,
so `size + 1` rounds of fuel are never used up. -/
def slideDown (q : minqueue K V) (index : Nat) : Except Fault (minqueue K V) :=
  slideDownLoop (q.size + 1) q index

/-- The constructor `minqueue(int capacity)` (lines 146-150), for a capacity
that is not negative. -/
def new (capacity : Nat) : minqueue K V :=
  { heap := resize [] capacity, positionMap := fun _ => none, size := 0 }

/-- The loop of the fill constructor (lines 174-179) from index `i` on: for
each key the two assignments to `heap[i]` and the map write. -/
def fillFrom (initialValue : V) : List K → Nat → minqueue K V → Except Fault (minqueue K V)
  | [], _, q => .ok q
  | key :: rest, i, q =>
    match q.heap[i]? with
    | none => .error .outOfBounds
    | some d =>
      let heap1 := q.heap.set i { d with key := key }
      match heap1[i]? with
      | none => .error .outOfBounds
      | some d1 =>
        fillFrom initialValue rest (i + 1)
          { q with heap := heap1.set i { d1 with value := initialValue },
                   positionMap := Function.update q.positionMap key (some i) }

/-- The fill constructor `minqueue(vector<TKey> keys, TValue initialValue)`
(lines 171-181).  The field `size` is assigned after the loop, which does not
read it. -/
def fill (keys : List K) (initialValue : V) : Except Fault (minqueue K V) :=
  match fillFrom initialValue keys 0
      { heap := resize [] keys.length, positionMap := fun _ => none, size := 0 } with
  | .error e => .error e
  | .ok q => .ok { q with size := keys.length }

/-- The method `empty` (lines 213-219). -/
def empty (q : minqueue K V) : Bool :=
  if q.size = 0 then true else false

/-- The method `pushinorder` (lines 236-266).  The iterator `it` stays valid
while the map is written, so `it->second` is the map's record for `key` at the
moment it is read. -/
def pushinorder (q : minqueue K V) (key : K) (value : V) : Except Fault (minqueue K V) :=
  match q.positionMap key with
  | some pos =>
    match q.heap[pos]? with
    | none => .error .outOfBounds
    | some d =>
      let q1 : minqueue K V := { q with heap := q.heap.set pos { d with value := value } }
      match slideUp q1 pos with
      | .error e => .error e
      | .ok q2 =>
        match q2.positionMap key with
        | none => .error .outOfBounds
        | some pos2 => slideDown q2 pos2
  | none =>
    let heap1 := if q.size = q.heap.length then resize q.heap (q.size * 2) else q.heap
    match heap1[q.size]? with
    | none => .error .outOfBounds
    | some _ =>
      let q1 : minqueue K V :=
        { heap := heap1.set q.size { key := key, value := value },
          positionMap := Function.update q.positionMap key (some q.size),
          size := q.size + 1 }
      match q1.positionMap key with
      | none => .error .outOfBounds
      | some pos =>
        match slideUp q1 pos with
        | .error e => .error e
        | .ok q2 =>
          match q2.positionMap key with
          | none => .error .outOfBounds
          | some pos2 => slideDown q2 pos2

/-- The method `minfront` (lines 276-284). -/
def minfront (q : minqueue K V) : Result K V K :=
  if empty q then .logicError q
  else
    match q.heap[0]? with
    | none => .fault .outOfBounds
    | some d => .ok d.key q

/-- The method `minvalue` (lines 289-297). -/
def minvalue (q : minqueue K V) : Result K V V :=
  if empty q then .logicError q
  else
    match q.heap[0]? with
    | none => .fault .outOfBounds
    | some d => .ok d.value q

/-- The method `minpop` (lines 306-316). -/
def minpop (q : minqueue K V) : Result K V Unit :=
  if empty q then .logicError q
  else
    match q.heap[0]? with
    | none => .fault .outOfBounds
    | some d0 =>
      let map1 := Function.update q.positionMap d0.key none
      match q.heap[q.size - 1]? with
      | none => .fault .outOfBounds
      | some last =>
        let q1 : minqueue K V :=
          { heap := q.heap.set 0 last, positionMap := map1, size := q.size - 1 }
        match slideDown q1 0 with
        | .error e => .fault e
        | .ok q2 => .ok () q2

/-- The method `top` (lines 321-331). -/
def top (q : minqueue K V) : Result K V (K × V) :=
  if empty q then .logicError q
  else
    match q.heap[0]? with
    | none => .fault .outOfBounds
    | some d =>
      match q.heap[0]? with
      | none => .fault .outOfBounds
      | some d1 => .ok (d.key, d1.value) q

end Code

section Spec

variable {K V : Type} [LinearOrder K] [LinearOrder V] [Inhabited K] [Inhabited V]

/-- Entry stored at slot `i` of the vector (the default record beyond its
end, where the code never reads). -/
def entry (q : minqueue K V) (i : Nat) : Data K V :=
  (q.heap[i]?).getD default

/-- The live entries: slots `0 .. size - 1`, in slot order. -/
def live (q : minqueue K V) : List (Data K V) :=
  q.heap.take q.size

/-- Keys of the live entries, in slot order. -/
def liveKeys (q : minqueue K V) : List K :=
  (live q).map Data.key

/-- Position of an entry in the order "by value, then by key". -/
def rank (d : Data K V) : Lex (V × K) :=
  toLex (d.value, d.key)

/-- Entry `a` precedes or equals entry `b` : the value of `a` is not greater,
and with equal values the key of `a` is not greater. -/
def precedesEq (a b : Data K V) : Prop :=
  ¬ b.value < a.value ∧ (a.value = b.value → a.key ≤ b.key)

/-- The heap invariant: every live slot other than the root is preceded or
equalled by its parent slot `(i - 1) / 2`. -/
def HeapOrdered (q : minqueue K V) : Prop :=
  ∀ i, 0 < i → i < q.size → precedesEq (entry q ((i - 1) / 2)) (entry q i)

/-- What the helper methods rely on: the live slots are inside the vector and
the key of each live slot has a record in the map. -/
structure Sane (q : minqueue K V) : Prop where
  size_le : q.size ≤ q.heap.length
  present : ∀ i, i < q.size → q.positionMap (entry q i).key ≠ none

/-- What a run of swaps among live slots leaves as it was. -/
structure Frame (q q' : minqueue K V) : Prop where
  size_eq : q'.size = q.size
  length_eq : q'.heap.length = q.heap.length
  perm : (live q').Perm (live q)
  dom : ∀ k, q'.positionMap k = none ↔ q.positionMap k = none
  records : ∀ k p, q'.positionMap k = some p → q.positionMap k = some p ∨ p < q.size
  beyond : ∀ i, q.size ≤ i → entry q' i = entry q i

/-- The structural invariant of the states the public interface produces:
the vector is not empty and holds the live slots, the live keys are pairwise
distinct, the map has a record exactly for the live keys, and every record
names a slot of the vector. -/
structure Good (q : minqueue K V) : Prop where
  length_pos : 0 < q.heap.length
  size_le : q.size ≤ q.heap.length
  nodup : (liveKeys q).Nodup
  dom : ∀ k, q.positionMap k ≠ none ↔ k ∈ liveKeys q
  records : ∀ k p, q.positionMap k = some p → p < q.heap.length

/-- Index consistency: the record of the key of each live slot names that
slot. -/
def IndexConsistent (q : minqueue K V) : Prop :=
  ∀ i, i < q.size → q.positionMap (entry q i).key = some i

/-- States reachable from the capacity-only constructor with a capacity of at
least one by calls of `pushinorder` and `minpop` (a `minpop` that throws, and
the reading methods, leave the state as it is). -/
inductive Reachable : minqueue K V → Prop
  | init (capacity : Nat) (h : 1 ≤ capacity) : Reachable (new capacity)
  | push (q q' : minqueue K V) (key : K) (value : V) :
      Reachable q → pushinorder q key value = .ok q' → Reachable q'
  | pop (q q' : minqueue K V) :
      Reachable q → minpop q = .ok () q' → Reachable q'

/-- Push the pairs of a list one by one, first pair first. -/
def pushAll : minqueue K V → List (K × V) → Except Fault (minqueue K V)
  | q, [] => .ok q
  | q, (k, v) :: rest =>
    match pushinorder q k v with
    | .error e => .error e
    | .ok q1 => pushAll q1 rest

/-- The client loop "while not `empty()` : read `minfront()` and `minvalue()`,
then `minpop()`", collecting the pairs read; `none` when a call throws or
faults, or when the rounds allowed are used up with the queue not empty. -/
def drain : Nat → minqueue K V → Option (List (K × V))
  | 0, q => if empty q then some [] else none
  | fuel + 1, q =>
    if empty q then some []
    else
      match minfront q with
      | .ok k q1 =>
        match minvalue q1 with
        | .ok v q2 =>
          match minpop q2 with
          | .ok _ q3 => (drain fuel q3).map (fun rest => (k, v) :: rest)
          | _ => none
        | _ => none
      | _ => none

/-- A pair `(key, value)` comes no later than another in the order "by value,
then by key". -/
def pairLE (a b : K × V) : Prop :=
  a.2 < b.2 ∨ (a.2 = b.2 ∧ a.1 ≤ b.1)

/-- The live entries as `(key, value)` pairs, in slot order. -/
def pairs (q : minqueue K V) : List (K × V) :=
  (live q).map (fun d => (d.key, d.value))

/-- Index consistency as the position index is specified: every live key has
a record that names a live slot holding that key. -/
def IndexRecorded (q : minqueue K V) : Prop :=
  ∀ k, k ∈ liveKeys q → ∃ p, q.positionMap k = some p ∧ p < q.size ∧ (entry q p).key = k

instance (a b : Data K V) : Decidable (precedesEq a b) := by
  unfold precedesEq; infer_instance

instance (q : minqueue K V) : Decidable (IndexConsistent q) := by
  unfold IndexConsistent; infer_instance

/-- Reachable states together with two counters: the calls of `pushinorder`
made so far with a key that was not in the queue, and the calls of `minpop`
that returned. -/
inductive Counted : minqueue K V → Nat → Nat → Prop
  | init (capacity : Nat) (h : 1 ≤ capacity) : Counted (new capacity) 0 0
  | pushNew (q q' : minqueue K V) (key : K) (value : V) (inserts pops : Nat) :
      Counted q inserts pops → key ∉ liveKeys q → pushinorder q key value = .ok q' →
      Counted q' (inserts + 1) pops
  | pushOld (q q' : minqueue K V) (key : K) (value : V) (inserts pops : Nat) :
      Counted q inserts pops → key ∈ liveKeys q → pushinorder q key value = .ok q' →
      Counted q' inserts pops
  | pop (q q' : minqueue K V) (inserts pops : Nat) :
      Counted q inserts pops → minpop q = .ok () q' → Counted q' inserts (pops + 1)

/-- The calls `minfront()` then `minpop()`, made `n` times in a row: the keys
read and the state left; `none` when a call throws or faults. -/
def rounds : Nat → minqueue K V → Option (List K × minqueue K V)
  | 0, q => some ([], q)
  | n + 1, q =>
    match minfront q with
    | .ok k q1 =>
      match minpop q1 with
      | .ok _ q2 => (rounds n q2).map (fun r => (k :: r.1, r.2))
      | _ => none
    | _ => none

/-- The loop of `slideUp` as in `slideUpLoop`, also returning the values that
`index` takes, one for each swap made. -/
def slideUpTrace : Nat → minqueue K V → Nat → Except Fault (minqueue K V × List Nat)
  | 0, _, _ => .error .outOfFuel
  | fuel + 1, q, index =>
    let parentIndex := (index - 1) / 2
    if 0 < index then
      match getIndexMin q index parentIndex with
      | .error e => .error e
      | .ok m =>
        if m = (index : Int) then
          match swap q index parentIndex with
          | .error e => .error e
          | .ok q1 =>
            match slideUpTrace fuel q1 parentIndex with
            | .error e => .error e
            | .ok r => .ok (r.1, parentIndex :: r.2)
        else .ok (q, [])
    else .ok (q, [])

/-- The loop of `slideDown` as in `slideDownLoop`, also returning the values
that `index` takes, one for each swap made. -/
def slideDownTrace : Nat → minqueue K V → Nat → Except Fault (minqueue K V × List Nat)
  | 0, _, _ => .error .outOfFuel
  | fuel + 1, q, index =>
    match getIndexMin q (index * 2 + 1) (index * 2 + 2) with
    | .error e => .error e
    | .ok minChildIndex =>
      if index < q.size ∧ minChildIndex ≠ -1 then
        match getIndexMin q index minChildIndex.toNat with
        | .error e => .error e
        | .ok m =>
          if m = minChildIndex then
            match swap q index minChildIndex.toNat with
            | .error e => .error e
            | .ok q1 =>
              match slideDownTrace fuel q1 minChildIndex.toNat with
              | .error e => .error e
              | .ok r => .ok (r.1, minChildIndex.toNat :: r.2)
          else .ok (q, [])
      else .ok (q, [])

/-- Forget the trace. -/
def dropTrace (r : Except Fault (minqueue K V × List Nat)) : Except Fault (minqueue K V) :=
  match r with
  | .error e => .error e
  | .ok p => .ok p.1

/-- Number of levels of a heap with `n ≥ 1` entries, its height:
`⌊log₂ n⌋ + 1`. -/
def levels (n : Nat) : Nat :=
  Nat.log 2 n + 1

end Spec

section Examples

/-- The state of `minqueue<int,int> q(2); q.pushinorder(1,1); q.pushinorder(2,2);
q.minpop();` : entry `(2,2)` was moved from slot 1 to slot 0, the map still
records slot 1 for key 2, and slot 1 keeps its old content. -/
def staleQueue : minqueue Nat Nat :=
  { heap := [⟨2, 2⟩, ⟨2, 2⟩],
    positionMap := Function.update
      (Function.update (Function.update (fun _ => none) 1 (some 0)) 2 (some 1)) 1 none,
    size := 1 }

/-- The state of `staleQueue` after `q.pushinorder(2,0)` : the write went to
slot 1, which is not live. -/
def staleQueueUpdated : minqueue Nat Nat :=
  { staleQueue with heap := [⟨2, 2⟩, ⟨2, 0⟩] }

/-- The state of `minqueue<int,int> q(1); q.pushinorder(1,5);`. -/
def oneQueue : minqueue Nat Nat :=
  { heap := [⟨1, 5⟩], positionMap := Function.update (fun _ => none) 1 (some 0), size := 1 }

/-- The queue of capacity 1 after pushing `(1,5)`, `(2,3)`, `(3,3)`, `(4,1)`. -/
def sampleQueue : minqueue Nat Nat :=
  match pushAll (new 1) [(1, 5), (2, 3), (3, 3), (4, 1)] with
  | .ok q => q
  | .error _ => new 1

/-- The state of `staleQueue` after `q.pushinorder(3,5)` : key 3 is in slot 1,
the slot that the record of key 2 still names. -/
def staleQueue3 : minqueue Nat Nat :=
  { heap := [⟨2, 2⟩, ⟨3, 5⟩],
    positionMap := Function.update staleQueue.positionMap 3 (some 1),
    size := 2 }

/-- The state of `staleQueue3` after `q.pushinorder(2,2)` : the write went to
slot 1, the entry of key 3. -/
def staleQueue3Updated : minqueue Nat Nat :=
  { staleQueue3 with heap := [⟨2, 2⟩, ⟨3, 2⟩] }

/-- The state of `minqueue<int,int> q(2); q.pushinorder(1,1);` : slot 1 is
not live and holds the value-initialised record, whose key 0 has no record. -/
def halfQueue : minqueue Nat Nat :=
  { heap := [⟨1, 1⟩, ⟨0, 0⟩], positionMap := Function.update (fun _ => none) 1 (some 0),
    size := 1 }

/-- An index-consistent state whose root is out of place. -/
def tiltedQueue : minqueue Nat Nat :=
  { heap := [⟨1, 9⟩, ⟨2, 3⟩, ⟨3, 5⟩],
    positionMap := fun k =>
      if k = 1 then some 0 else if k = 2 then some 1 else if k = 3 then some 2 else none,
    size := 3 }

/-- An index-consistent state whose last slot is out of place. -/
def liftedQueue : minqueue Nat Nat :=
  { heap := [⟨1, 3⟩, ⟨2, 5⟩, ⟨3, 1⟩],
    positionMap := fun k =>
      if k = 1 then some 0 else if k = 2 then some 1 else if k = 3 then some 2 else none,
    size := 3 }

end Examples

section Lemmas
variable {K V : Type} [LinearOrder K] [LinearOrder V] [Inhabited K] [Inhabited V]

theorem less_iff_rank (a b : Data K V) : less a b ↔ rank a < rank b := by
  simp [less, rank, Prod.Lex.lt_iff]

theorem precedesEq_iff_rank (a b : Data K V) : precedesEq a b ↔ rank a ≤ rank b := by
  simp only [precedesEq, rank, Prod.Lex.le_iff, not_lt]
  constructor
  · rintro ⟨h1, h2⟩
    rcases lt_or_eq_of_le h1 with h | h
    · exact Or.inl h
    · exact Or.inr ⟨h, h2 h⟩
  · rintro (h | ⟨h1, h2⟩)
    · exact ⟨le_of_lt h, fun e => absurd e (ne_of_lt h)⟩
    · exact ⟨le_of_eq h1, fun _ => h2⟩

theorem not_less_iff_rank (a b : Data K V) : ¬ less a b ↔ rank b ≤ rank a := by
  rw [less_iff_rank, not_lt]

theorem getElem?_of_lt {q : minqueue K V} {i : Nat} (h : i < q.heap.length) :
    q.heap[i]? = some (entry q i) := by
  simp [entry, List.getElem?_eq_getElem h]

theorem noElement_of_le {q : minqueue K V} {i p : Nat} (h : q.size ≤ i) :
    noElement q i p = .ok true := by
  simp [noElement, h]

theorem noElement_of_lt {q : minqueue K V} {i p : Nat} (h : i < q.size)
    (hp : p < q.heap.length) :
    noElement q i p = .ok (q.positionMap (entry q p).key).isNone := by
  simp [noElement, not_le.mpr h, getElem?_of_lt hp]

theorem noElement_live {q : minqueue K V} (hs : Sane q) {i : Nat} (h : i < q.size) :
    noElement q i i = .ok false := by
  rw [noElement_of_lt h (lt_of_lt_of_le h hs.size_le)]
  have := hs.present i h
  cases hk : q.positionMap (entry q i).key with
  | none => exact absurd hk this
  | some p => rfl

theorem getIndexMin_both {q : minqueue K V} (hs : Sane q) {i j : Nat}
    (hi : i < q.size) (hj : j < q.size) :
    getIndexMin q i j = .ok (if less (entry q i) (entry q j) then (i : Int) else (j : Int)) := by
  have hi' := getElem?_of_lt (lt_of_lt_of_le hi hs.size_le)
  have hj' := getElem?_of_lt (lt_of_lt_of_le hj hs.size_le)
  simp only [getIndexMin, noElement_live hs hi, noElement_live hs hj, hi', hj']
  split <;> rfl

theorem getIndexMin_left {q : minqueue K V} (hs : Sane q) {i j : Nat}
    (hi : i < q.size) (hj : q.size ≤ j) :
    getIndexMin q i j = .ok (i : Int) := by
  simp only [getIndexMin, noElement_live hs hi, noElement_of_le hj]

theorem getIndexMin_none {q : minqueue K V} {i j : Nat}
    (hi : q.size ≤ i) (hj : q.size ≤ j) :
    getIndexMin q i j = .ok (-1) := by
  simp only [getIndexMin, noElement_of_le hi, noElement_of_le hj]

theorem getIndexMin_beyond {q : minqueue K V} {i j : Nat}
    (hi : q.size ≤ i) (hlen : i < q.heap.length) :
    getIndexMin q i j = .ok (-1) ∨ getIndexMin q i j = .ok (j : Int) := by
  by_cases hj : q.size ≤ j
  · exact Or.inl (by simp only [getIndexMin, noElement_of_le hi, noElement_of_le hj])
  · simp only [getIndexMin, noElement_of_le hi, noElement_of_lt (not_le.mp hj) hlen]
    cases (q.positionMap (entry q i).key).isNone <;> simp

end Lemmas

section Lemmas2
variable {K V : Type} [LinearOrder K] [LinearOrder V] [Inhabited K] [Inhabited V]

theorem perm_map_swap {α : Type} (f : Nat → α) (n i j : Nat) (hi : i < n) (hj : j < n) :
    ((List.range n).map (fun x => f (Equiv.swap i j x))).Perm ((List.range n).map f) := by
  have key : ∀ y, y < n → Equiv.swap i j y < n := by
    intro y hy
    by_cases h1 : y = i
    · subst h1; rw [Equiv.swap_apply_left]; exact hj
    · by_cases h2 : y = j
      · subst h2; rw [Equiv.swap_apply_right]; exact hi
      · rw [Equiv.swap_apply_of_ne_of_ne h1 h2]; exact hy
  have h : ((List.range n).map (Equiv.swap i j)).Perm (List.range n) := by
    rw [List.perm_ext_iff_of_nodup
      ((List.nodup_range n).map (Equiv.injective _)) (List.nodup_range n)]
    intro a
    simp only [List.mem_map, List.mem_range]
    constructor
    · rintro ⟨y, hy, rfl⟩
      exact key y hy
    · intro ha
      exact ⟨Equiv.swap i j a, key a ha, by simp⟩
  have h2 := h.map f
  simpa [List.map_map, Function.comp_def] using h2

theorem live_eq_map {q : minqueue K V} (h : q.size ≤ q.heap.length) :
    live q = (List.range q.size).map (entry q) := by
  apply List.ext_getElem?
  intro n
  simp only [live, List.getElem?_take, List.getElem?_map]
  by_cases hn : n < q.size
  · rw [if_pos hn, List.getElem?_range hn, getElem?_of_lt (lt_of_lt_of_le hn h)]
    rfl
  · rw [if_neg hn, List.getElem?_eq_none (by simpa using hn)]
    rfl

theorem mem_live_iff {q : minqueue K V} (h : q.size ≤ q.heap.length) (d : Data K V) :
    d ∈ live q ↔ ∃ i, i < q.size ∧ entry q i = d := by
  simp [live_eq_map h]

theorem swap_eq {q : minqueue K V} {i j : Nat} (hi : i < q.heap.length)
    (hj : j < q.heap.length) (hij : i ≠ j) :
    swap q i j = .ok
      { heap := (q.heap.set i (entry q j)).set j (entry q i),
        positionMap := Function.update
          (Function.update q.positionMap (entry q j).key (some i)) (entry q i).key (some j),
        size := q.size } := by
  simp [swap, getElem?_of_lt hi, getElem?_of_lt hj, List.getElem?_set, hij, Ne.symm hij, hi, hj]

theorem entry_set {q : minqueue K V} (i : Nat) (d : Data K V) (n : Nat)
    (hi : i < q.heap.length) :
    entry { q with heap := q.heap.set i d } n = if n = i then d else entry q n := by
  simp only [entry, List.getElem?_set]
  by_cases h : i = n
  · subst h; simp [hi]
  · simp [h, Ne.symm h]

end Lemmas2

section Lemmas3
variable {K V : Type} [LinearOrder K] [LinearOrder V] [Inhabited K] [Inhabited V]

theorem Frame.refl (q : minqueue K V) : Frame q q :=
  ⟨rfl, rfl, List.Perm.refl _, fun _ => Iff.rfl, fun _ _ h => Or.inl h, fun _ _ => rfl⟩

theorem Frame.trans {q q' q'' : minqueue K V} (h1 : Frame q q') (h2 : Frame q' q'') :
    Frame q q'' := by
  refine ⟨h2.size_eq.trans h1.size_eq, h2.length_eq.trans h1.length_eq,
    h2.perm.trans h1.perm, fun k => (h2.dom k).trans (h1.dom k), ?_, ?_⟩
  · intro k p h
    rcases h2.records k p h with h' | h'
    · exact h1.records k p h'
    · exact Or.inr (h1.size_eq ▸ h')
  · intro i hi
    rw [h2.beyond i (h1.size_eq ▸ hi), h1.beyond i hi]

theorem Frame.keepsSane {q q' : minqueue K V} (hs : Sane q) (h : Frame q q') : Sane q' := by
  have hle : q'.size ≤ q'.heap.length := by rw [h.size_eq, h.length_eq]; exact hs.size_le
  refine ⟨hle, ?_⟩
  intro i hi
  have hm : entry q' i ∈ live q' := (mem_live_iff hle _).2 ⟨i, hi, rfl⟩
  obtain ⟨j, hj, hje⟩ := (mem_live_iff hs.size_le _).1 (h.perm.mem_iff.1 hm)
  rw [← hje]
  intro hn
  exact hs.present j hj ((h.dom _).1 hn)

theorem Good.sane {q : minqueue K V} (hg : Good q) : Sane q := by
  refine ⟨hg.size_le, ?_⟩
  intro i hi
  rw [hg.dom]
  exact List.mem_map.2 ⟨entry q i, (mem_live_iff hg.size_le _).2 ⟨i, hi, rfl⟩, rfl⟩

theorem Frame.keepsGood {q q' : minqueue K V} (hg : Good q) (h : Frame q q') : Good q' := by
  have hk : (liveKeys q').Perm (liveKeys q) := h.perm.map _
  refine ⟨by rw [h.length_eq]; exact hg.length_pos,
    by rw [h.size_eq, h.length_eq]; exact hg.size_le,
    hk.nodup_iff.2 hg.nodup, ?_, ?_⟩
  · intro k
    rw [hk.mem_iff, ← hg.dom k, not_iff_not]
    exact h.dom k
  · intro k p hp
    rw [h.length_eq]
    rcases h.records k p hp with h' | h'
    · exact hg.records k p h'
    · exact lt_of_lt_of_le h' hg.size_le

theorem swap_spec {q : minqueue K V} (hs : Sane q) {i j : Nat} (hi : i < q.size)
    (hj : j < q.size) (hij : i ≠ j) :
    ∃ q', swap q i j = .ok q' ∧ Frame q q' ∧
      (∀ n, entry q' n = if n = j then entry q i else if n = i then entry q j else entry q n) ∧
      q'.positionMap = Function.update
          (Function.update q.positionMap (entry q j).key (some i)) (entry q i).key (some j) := by
  have hi' := lt_of_lt_of_le hi hs.size_le
  have hj' := lt_of_lt_of_le hj hs.size_le
  refine ⟨_, swap_eq hi' hj' hij, ?_, ?_, rfl⟩
  · have hent : ∀ n, entry (⟨(q.heap.set i (entry q j)).set j (entry q i),
        Function.update (Function.update q.positionMap (entry q j).key (some i))
          (entry q i).key (some j), q.size⟩ : minqueue K V) n
        = entry q (Equiv.swap i j n) := by
      intro n
      simp only [entry, List.getElem?_set, List.length_set]
      by_cases h1 : n = j
      · subst h1; simp [hj', Equiv.swap_apply_right]
      · by_cases h2 : n = i
        · subst h2; simp [hi', hij, Ne.symm hij, Equiv.swap_apply_left]
        · simp [Ne.symm h1, Ne.symm h2, Equiv.swap_apply_of_ne_of_ne h2 h1]
    refine ⟨rfl, by simp, ?_, ?_, ?_, ?_⟩
    · rw [live_eq_map (by simpa using hs.size_le), live_eq_map hs.size_le]
      have : (fun n => entry (⟨(q.heap.set i (entry q j)).set j (entry q i),
        Function.update (Function.update q.positionMap (entry q j).key (some i))
          (entry q i).key (some j), q.size⟩ : minqueue K V) n)
          = fun n => entry q (Equiv.swap i j n) := funext hent
      show (List.map (fun n => entry _ n) (List.range q.size)).Perm _
      rw [this]
      exact perm_map_swap (entry q) q.size i j hi hj
    · intro k
      simp only [Function.update_apply]
      by_cases h1 : k = (entry q i).key
      · subst h1; simp [hs.present i hi]
      · by_cases h2 : k = (entry q j).key
        · subst h2; simp [h1, hs.present j hj]
        · simp [h1, h2]
    · intro k p
      simp only [Function.update_apply]
      split_ifs with h1 h2
      · intro h; right; have := Option.some.inj h; omega
      · intro h; right; have := Option.some.inj h; omega
      · exact Or.inl
    · intro n hn
      rw [hent, Equiv.swap_apply_of_ne_of_ne]
      · exact fun h => absurd (h ▸ hn) (not_le.mpr hi)
      · exact fun h => absurd (h ▸ hn) (not_le.mpr hj)
  · intro n
    simp only [entry, List.getElem?_set, List.length_set]
    by_cases h1 : n = j
    · subst h1; simp [hj']
    · by_cases h2 : n = i
      · subst h2; simp [hi', hij, Ne.symm hij, h1]
      · simp [Ne.symm h1, Ne.symm h2, h1, h2]

end Lemmas3

section Lemmas4
variable {K V : Type} [LinearOrder K] [LinearOrder V] [Inhabited K] [Inhabited V]

/-- Rank form of the heap invariant. -/
theorem heapOrdered_iff (q : minqueue K V) :
    HeapOrdered q ↔ ∀ j, 0 < j → j < q.size → rank (entry q ((j - 1) / 2)) ≤ rank (entry q j) := by
  simp only [HeapOrdered, precedesEq_iff_rank]

theorem slideUpLoop_repair (fuel : Nat) : ∀ (q : minqueue K V) (i : Nat), i < fuel → Sane q →
    i < q.size →
    (∀ j, 0 < j → j < q.size → j ≠ i → rank (entry q ((j - 1) / 2)) ≤ rank (entry q j)) →
    (0 < i → ∀ c, 0 < c → c < q.size → (c - 1) / 2 = i →
      rank (entry q ((i - 1) / 2)) ≤ rank (entry q c)) →
    ∃ q', slideUpLoop fuel q i = .ok q' ∧ Frame q q' ∧ HeapOrdered q' := by
  induction fuel with
  | zero => intro q i h; exact absurd h (Nat.not_lt_zero _)
  | succ fuel ih =>
    intro q i hfuel hs hi h1 h2
    by_cases hi0 : 0 < i
    · have hp : (i - 1) / 2 < q.size := by omega
      have hpi : (i - 1) / 2 ≠ i := by omega
      by_cases hl : less (entry q i) (entry q ((i - 1) / 2))
      · obtain ⟨q1, hsw, hfr, hent, -⟩ := swap_spec hs hi hp (Ne.symm hpi)
        have hs1 := hfr.keepsSane hs
        have hrk := (less_iff_rank _ _).1 hl
        obtain ⟨q', hq', hfr', hord⟩ := ih q1 ((i - 1) / 2) (by omega) hs1
          (by rw [hfr.size_eq]; exact hp)
          (by
            intro j hj0 hj hjp
            rw [hfr.size_eq] at hj
            rw [hent j, hent ((j - 1) / 2)]
            by_cases e1 : j = i
            · subst e1
              simp only [if_neg (Ne.symm hpi), if_true, if_neg hjp]
              exact le_of_lt hrk
            · simp only [if_neg hjp, if_neg e1]
              by_cases e2 : (j - 1) / 2 = (i - 1) / 2
              · simp only [e2, if_true]
                have := h1 j hj0 hj e1
                rw [e2] at this
                exact le_trans (le_of_lt hrk) this
              · by_cases e3 : (j - 1) / 2 = i
                · simp only [if_neg e2, e3, if_true, if_neg (Ne.symm hpi)]
                  exact h2 hi0 j hj0 hj e3
                · simp only [if_neg e2, if_neg e3]
                  exact h1 j hj0 hj e1)
          (by
            intro hp0 c hc0 hc hcp
            rw [hfr.size_eq] at hc
            rw [hent c, hent (((i - 1) / 2 - 1) / 2)]
            have a1 : ((i - 1) / 2 - 1) / 2 ≠ (i - 1) / 2 := by omega
            have a2 : ((i - 1) / 2 - 1) / 2 ≠ i := by omega
            have a3 : c ≠ (i - 1) / 2 := by omega
            simp only [if_neg a1, if_neg a2, if_neg a3]
            have hpar := h1 ((i - 1) / 2) hp0 hp hpi
            by_cases e1 : c = i
            · simp only [e1, if_true]; exact hpar
            · simp only [if_neg e1]
              have := h1 c hc0 hc e1
              rw [hcp] at this
              exact le_trans hpar this)
        refine ⟨q', ?_, hfr.trans hfr', hord⟩
        simp [slideUpLoop, hi0, getIndexMin_both hs hi hp, hl, hsw, hq']
      · refine ⟨q, ?_, Frame.refl q, ?_⟩
        · have : ((i - 1) / 2 : Int) ≠ (i : Int) := by omega
          simp [slideUpLoop, hi0, getIndexMin_both hs hi hp, hl]
          omega
        · rw [heapOrdered_iff]
          intro j hj0 hj
          by_cases e1 : j = i
          · subst e1; exact (not_less_iff_rank _ _).1 hl
          · exact h1 j hj0 hj e1
    · refine ⟨q, by simp [slideUpLoop, hi0], Frame.refl q, ?_⟩
      rw [heapOrdered_iff]
      intro j hj0 hj
      exact h1 j hj0 hj (by omega)

/-- The loop of `slideUp` does nothing at the root, at a slot that is not live,
and at a live slot that does not precede its parent. -/
theorem slideUpLoop_noop (fuel : Nat) (q : minqueue K V) (i : Nat) (hs : Sane q)
    (hlen : i < q.heap.length)
    (h : i = 0 ∨ q.size ≤ i ∨ ¬ less (entry q i) (entry q ((i - 1) / 2))) :
    slideUpLoop (fuel + 1) q i = .ok q := by
  by_cases hi0 : 0 < i
  · have hne : ((i - 1) / 2 : Int) ≠ (i : Int) := by omega
    by_cases hi : q.size ≤ i
    · rcases getIndexMin_beyond (j := (i - 1) / 2) hi hlen with hg | hg
      · simp [slideUpLoop, hi0, hg]
      · simp [slideUpLoop, hi0, hg]
        intro h'; omega
    · have hl : ¬ less (entry q i) (entry q ((i - 1) / 2)) := by
        rcases h with h | h | h
        · omega
        · exact absurd h hi
        · exact h
      have hp : (i - 1) / 2 < q.size := by omega
      simp [slideUpLoop, hi0, getIndexMin_both hs (not_le.mp hi) hp, hl]
      omega
  · simp [slideUpLoop, hi0]

end Lemmas4

section Lemmas5
variable {K V : Type} [LinearOrder K] [LinearOrder V] [Inhabited K] [Inhabited V]

/-- With a live left child, the first `getIndexMin` of a `slideDown` round
names a live child that precedes or equals every live child. -/
theorem minChild_spec {q : minqueue K V} (hs : Sane q) {i : Nat} (hl : i * 2 + 1 < q.size) :
    ∃ m : Nat, getIndexMin q (i * 2 + 1) (i * 2 + 2) = .ok (m : Int) ∧ m < q.size ∧
      (m - 1) / 2 = i ∧ 0 < m ∧
      ∀ c, 0 < c → c < q.size → (c - 1) / 2 = i → rank (entry q m) ≤ rank (entry q c) := by
  by_cases hr : i * 2 + 2 < q.size
  · by_cases hless : less (entry q (i * 2 + 1)) (entry q (i * 2 + 2))
    · refine ⟨i * 2 + 1, by simp [getIndexMin_both hs hl hr, hless], hl, by omega, by omega, ?_⟩
      intro c hc0 hc hcp
      have : c = i * 2 + 1 ∨ c = i * 2 + 2 := by omega
      rcases this with e | e
      · rw [e]
      · rw [e]; exact le_of_lt ((less_iff_rank _ _).1 hless)
    · refine ⟨i * 2 + 2, by simp [getIndexMin_both hs hl hr, hless], hr, by omega, by omega, ?_⟩
      intro c hc0 hc hcp
      have : c = i * 2 + 1 ∨ c = i * 2 + 2 := by omega
      rcases this with e | e
      · rw [e]; exact (not_less_iff_rank _ _).1 hless
      · rw [e]
  · refine ⟨i * 2 + 1, by simp [getIndexMin_left hs hl (not_lt.mp hr)], hl, by omega, by omega, ?_⟩
    intro c hc0 hc hcp
    have : c = i * 2 + 1 := by omega
    rw [this]

theorem slideDownLoop_repair (fuel : Nat) : ∀ (q : minqueue K V) (i : Nat), 1 ≤ fuel →
    q.size < fuel + i → Sane q → i < q.size →
    (∀ j, 0 < j → j < q.size → (j - 1) / 2 ≠ i →
      rank (entry q ((j - 1) / 2)) ≤ rank (entry q j)) →
    (0 < i → ∀ c, 0 < c → c < q.size → (c - 1) / 2 = i →
      rank (entry q ((i - 1) / 2)) ≤ rank (entry q c)) →
    ∃ q', slideDownLoop fuel q i = .ok q' ∧ Frame q q' ∧ HeapOrdered q' := by
  induction fuel with
  | zero => intro q i h; exact absurd h (by decide)
  | succ fuel ih =>
    intro q i _ hfuel hs hi h1 h2
    by_cases hl : i * 2 + 1 < q.size
    · obtain ⟨m, hm, hmlt, hmp, hm0, hmin⟩ := minChild_spec hs hl
      have him : i ≠ m := by omega
      have hcast : ((m : Int)) ≠ -1 := by omega
      by_cases hless : less (entry q i) (entry q m)
      · refine ⟨q, ?_, Frame.refl q, ?_⟩
        · have : (i : Int) ≠ (m : Int) := by omega
          simp [slideDownLoop, hm, hi, getIndexMin_both hs hi hmlt, hless, hcast]
          omega
        · rw [heapOrdered_iff]
          intro j hj0 hj
          by_cases e1 : (j - 1) / 2 = i
          · rw [e1]
            exact le_trans (le_of_lt ((less_iff_rank _ _).1 hless)) (hmin j hj0 hj e1)
          · exact h1 j hj0 hj e1
      · obtain ⟨q1, hsw, hfr, hent, -⟩ := swap_spec hs hi hmlt him
        have hs1 := hfr.keepsSane hs
        have hrk := (not_less_iff_rank _ _).1 hless
        obtain ⟨q', hq', hfr', hord⟩ := ih q1 m (by omega) (by rw [hfr.size_eq]; omega) hs1
          (by rw [hfr.size_eq]; exact hmlt)
          (by
            intro j hj0 hj hjp
            rw [hfr.size_eq] at hj
            rw [hent j, hent ((j - 1) / 2)]
            simp only [if_neg hjp]
            by_cases e1 : j = m
            · subst e1
              simp only [hmp, if_true]
              exact hrk
            · simp only [if_neg e1]
              by_cases e2 : j = i
              · subst e2
                have a1 : (j - 1) / 2 ≠ j := by omega
                simp only [if_true, if_neg a1]
                exact h2 hj0 m hm0 hmlt hmp
              · simp only [if_neg e2]
                by_cases e3 : (j - 1) / 2 = i
                · simp only [e3, if_true]
                  exact hmin j hj0 hj e3
                · simp only [if_neg e3]
                  exact h1 j hj0 hj e3)
          (by
            intro _ c hc0 hc hcp
            rw [hfr.size_eq] at hc
            rw [hent c, hent ((m - 1) / 2)]
            have a1 : (m - 1) / 2 ≠ m := by omega
            have a2 : c ≠ m := by omega
            have a3 : c ≠ i := by omega
            simp only [if_neg a1, hmp, if_true, if_neg a2, if_neg a3, if_neg him]
            have := h1 c hc0 hc (by omega)
            rw [hcp] at this
            exact this)
        refine ⟨q', ?_, hfr.trans hfr', hord⟩
        simp [slideDownLoop, hm, hi, getIndexMin_both hs hi hmlt, hless, hcast, hsw, hq']
    · refine ⟨q, ?_, Frame.refl q, ?_⟩
      · simp [slideDownLoop, getIndexMin_none (q := q) (i := i * 2 + 1) (j := i * 2 + 2)
          (by omega) (by omega)]
      · rw [heapOrdered_iff]
        intro j hj0 hj
        exact h1 j hj0 hj (by omega)

/-- The loop of `slideDown` does nothing at a slot that is not live. -/
theorem slideDownLoop_beyond (fuel : Nat) (q : minqueue K V) (i : Nat) (hi : q.size ≤ i) :
    slideDownLoop (fuel + 1) q i = .ok q := by
  simp [slideDownLoop, getIndexMin_none (q := q) (i := i * 2 + 1) (j := i * 2 + 2)
    (by omega) (by omega)]

/-- On a state that satisfies the heap invariant `slideDown` keeps it, from
any slot. -/
theorem slideDown_ordered {q : minqueue K V} (hs : Sane q) (ho : HeapOrdered q) (i : Nat) :
    ∃ q', slideDown q i = .ok q' ∧ Frame q q' ∧ HeapOrdered q' := by
  rw [heapOrdered_iff] at ho
  by_cases hi : i < q.size
  · apply slideDownLoop_repair (q.size + 1) q i (by omega) (by omega) hs hi
    · intro j hj0 hj _; exact ho j hj0 hj
    · intro hi0 c hc0 hc hcp
      have := ho c hc0 hc
      rw [hcp] at this
      exact le_trans (ho i hi0 hi) this
  · refine ⟨q, slideDownLoop_beyond _ q i (not_lt.mp hi), Frame.refl q, ?_⟩
    rw [heapOrdered_iff]; exact ho

end Lemmas5

section Lemmas6
variable {K V : Type} [LinearOrder K] [LinearOrder V] [Inhabited K] [Inhabited V]

/-- The vector after the growth test of `pushinorder` : slot `size` is inside
it and the old slots are as they were. -/
theorem grow_spec {q : minqueue K V} (hg : Good q) :
    q.size < (if q.size = q.heap.length then resize q.heap (q.size * 2) else q.heap).length ∧
    q.heap.length ≤ (if q.size = q.heap.length then resize q.heap (q.size * 2) else q.heap).length ∧
    ∀ n, n < q.heap.length →
      (if q.size = q.heap.length then resize q.heap (q.size * 2) else q.heap)[n]? = q.heap[n]? := by
  have h0 := hg.length_pos
  have h1 := hg.size_le
  by_cases h : q.size = q.heap.length
  · simp only [if_pos h, resize]
    have ht : List.take (q.size * 2) q.heap = q.heap := List.take_of_length_le (by omega)
    rw [ht]
    refine ⟨by simp; omega, by simp, ?_⟩
    intro n hn
    exact List.getElem?_append_left hn
  · simp only [if_neg h]
    exact ⟨by omega, le_refl _, by simp⟩

theorem append_spec {q : minqueue K V} (hg : Good q) (k : K) (v : V)
    (hk : q.positionMap k = none) (heap1 : List (Data K V)) (hlen : q.size < heap1.length)
    (hlen2 : q.heap.length ≤ heap1.length)
    (hpre : ∀ n, n < q.heap.length → heap1[n]? = q.heap[n]?) :
    Good (⟨heap1.set q.size ⟨k, v⟩, Function.update q.positionMap k (some q.size),
      q.size + 1⟩ : minqueue K V) ∧
    live (⟨heap1.set q.size ⟨k, v⟩, Function.update q.positionMap k (some q.size),
      q.size + 1⟩ : minqueue K V) = live q ++ [⟨k, v⟩] ∧
    (∀ n, n < q.size → entry (⟨heap1.set q.size ⟨k, v⟩,
      Function.update q.positionMap k (some q.size), q.size + 1⟩ : minqueue K V) n = entry q n) ∧
    entry (⟨heap1.set q.size ⟨k, v⟩, Function.update q.positionMap k (some q.size),
      q.size + 1⟩ : minqueue K V) q.size = ⟨k, v⟩ := by
  have hsz := hg.size_le
  have he : ∀ n, n < q.size → entry (⟨heap1.set q.size ⟨k, v⟩,
      Function.update q.positionMap k (some q.size), q.size + 1⟩ : minqueue K V) n = entry q n := by
    intro n hn
    have : q.size ≠ n := by omega
    simp only [entry, List.getElem?_set, if_neg this]
    rw [hpre n (by omega)]
  have he2 : entry (⟨heap1.set q.size ⟨k, v⟩, Function.update q.positionMap k (some q.size),
      q.size + 1⟩ : minqueue K V) q.size = ⟨k, v⟩ := by
    simp [entry, List.getElem?_set, hlen]
  have hlive : live (⟨heap1.set q.size ⟨k, v⟩, Function.update q.positionMap k (some q.size),
      q.size + 1⟩ : minqueue K V) = live q ++ [⟨k, v⟩] := by
    rw [live_eq_map (by simpa using hlen), live_eq_map hsz]
    show List.map _ (List.range (q.size + 1)) = _
    rw [List.range_succ, List.map_append, List.map_singleton, he2]
    congr 1
    apply List.map_congr_left
    intro n hn
    exact he n (List.mem_range.1 hn)
  have hnot : k ∉ liveKeys q := by
    rw [← hg.dom k]; simp [hk]
  refine ⟨⟨by simp; omega, by simpa using hlen, ?_, ?_, ?_⟩, hlive, he, he2⟩
  · simp only [liveKeys, hlive, List.map_append, List.map_singleton]
    rw [List.nodup_append]
    refine ⟨hg.nodup, List.nodup_singleton _, ?_⟩
    intro a ha hb
    rw [List.mem_singleton] at hb
    subst hb
    exact hnot ha
  · intro k'
    simp only [liveKeys, hlive, List.map_append, List.map_singleton, List.mem_append,
      List.mem_singleton, Function.update_apply]
    by_cases e : k' = k
    · simp [e]
    · simp only [if_neg e, e, or_false]
      exact hg.dom k'
  · intro k' p
    simp only [Function.update_apply, List.length_set]
    split_ifs with e
    · intro h; have := Option.some.inj h; omega
    · intro h; exact lt_of_lt_of_le (hg.records k' p h) hlen2

/-- Pushing a key that has no record: the call returns, the structural and the
heap invariant hold again, and the live entries are the old ones and the new
pair. -/
theorem push_new {q : minqueue K V} (hg : Good q) (ho : HeapOrdered q) (k : K) (v : V)
    (hk : q.positionMap k = none) :
    ∃ q', pushinorder q k v = .ok q' ∧ Good q' ∧ HeapOrdered q' ∧ q'.size = q.size + 1 ∧
      (live q').Perm (⟨k, v⟩ :: live q) := by
  obtain ⟨hlen, hlen2, hpre⟩ := grow_spec hg
  generalize hh : (if q.size = q.heap.length then resize q.heap (q.size * 2) else q.heap) = heap1
    at hlen hlen2 hpre
  obtain ⟨hg1, hlive1, he1, he2⟩ := append_spec hg k v hk heap1 hlen hlen2 hpre
  generalize hq1 : (⟨heap1.set q.size ⟨k, v⟩, Function.update q.positionMap k (some q.size),
      q.size + 1⟩ : minqueue K V) = q1 at hg1 hlive1 he1 he2
  have hsz1 : q1.size = q.size + 1 := by rw [← hq1]
  have hpm1 : q1.positionMap k = some q.size := by rw [← hq1]; simp
  rw [heapOrdered_iff] at ho
  obtain ⟨q2, hq2, hfr2, ho2⟩ := slideUpLoop_repair (q.size + 1) q1 q.size (by omega) hg1.sane
    (by omega)
    (by
      intro j hj0 hj hne
      rw [hsz1] at hj
      rw [he1 j (by omega), he1 ((j - 1) / 2) (by omega)]
      exact ho j hj0 (by omega))
    (by
      intro _ c hc0 hc hcp
      omega)
  have hg2 := hfr2.keepsGood hg1
  have hpm2 : q2.positionMap k ≠ none := by
    rw [Ne, hfr2.dom k, hpm1]; simp
  obtain ⟨pos2, hpos2⟩ := Option.ne_none_iff_exists'.1 hpm2
  obtain ⟨q3, hq3, hfr3, ho3⟩ := slideDown_ordered hg2.sane ho2 pos2
  refine ⟨q3, ?_, hfr3.keepsGood hg2, ho3, by rw [hfr3.size_eq, hfr2.size_eq, hsz1], ?_⟩
  · have hget : heap1[q.size]? = some (heap1[q.size]) := List.getElem?_eq_getElem hlen
    simp only [pushinorder, hk, hh, hget, hq1, Function.update_same, slideUp, hq2, hpos2, hq3]
  · refine (hfr3.perm.trans hfr2.perm).trans ?_
    rw [hlive1]
    exact List.perm_append_singleton _ _

end Lemmas6

section Lemmas7
variable {K V : Type} [LinearOrder K] [LinearOrder V] [Inhabited K] [Inhabited V]

/-- Under the heap invariant the root precedes or equals every live slot. -/
theorem root_min {q : minqueue K V} (ho : HeapOrdered q) :
    ∀ i, i < q.size → rank (entry q 0) ≤ rank (entry q i) := by
  rw [heapOrdered_iff] at ho
  intro i
  induction i using Nat.strong_induction_on with
  | _ i ih =>
    intro hi
    by_cases h0 : i = 0
    · subst h0; exact le_refl _
    · exact le_trans (ih ((i - 1) / 2) (by omega) (by omega)) (ho i (by omega) hi)

/-- Overwriting the value of one slot keeps the structural invariant. -/
theorem overwrite_spec {q : minqueue K V} (hg : Good q) (pos : Nat) (v : V)
    (hpl : pos < q.heap.length) :
    Good (⟨q.heap.set pos ⟨(entry q pos).key, v⟩, q.positionMap, q.size⟩ : minqueue K V) ∧
    liveKeys (⟨q.heap.set pos ⟨(entry q pos).key, v⟩, q.positionMap, q.size⟩ : minqueue K V)
      = liveKeys q ∧
    ∀ n, entry (⟨q.heap.set pos ⟨(entry q pos).key, v⟩, q.positionMap, q.size⟩ : minqueue K V) n
      = if n = pos then ⟨(entry q pos).key, v⟩ else entry q n := by
  have he : ∀ n, entry (⟨q.heap.set pos ⟨(entry q pos).key, v⟩, q.positionMap, q.size⟩ :
      minqueue K V) n = if n = pos then ⟨(entry q pos).key, v⟩ else entry q n :=
    fun n => entry_set (q := q) pos _ n hpl
  have hkeys : liveKeys (⟨q.heap.set pos ⟨(entry q pos).key, v⟩, q.positionMap, q.size⟩ :
      minqueue K V) = liveKeys q := by
    unfold liveKeys
    rw [live_eq_map (by simpa using hg.size_le), live_eq_map hg.size_le]
    simp only [List.map_map]
    apply List.map_congr_left
    intro n _
    simp only [Function.comp_apply, he n]
    split_ifs with e
    · rw [e]
    · rfl
  refine ⟨⟨by simpa using hg.length_pos, by simpa using hg.size_le, ?_, ?_, ?_⟩, hkeys, he⟩
  · rw [hkeys]; exact hg.nodup
  · intro k'; rw [hkeys]; exact hg.dom k'
  · intro k' p hp; simpa using hg.records k' p hp

/-- Pushing a key that has a record: the call returns, the structural and the
heap invariant hold again, and size, live keys and the domain of the map are
as before. -/
theorem push_update {q : minqueue K V} (hg : Good q) (ho : HeapOrdered q) (k : K) (v : V)
    {pos : Nat} (hk : q.positionMap k = some pos) :
    ∃ q', pushinorder q k v = .ok q' ∧ Good q' ∧ HeapOrdered q' ∧ q'.size = q.size ∧
      (liveKeys q').Perm (liveKeys q) := by
  have hpl : pos < q.heap.length := hg.records k pos hk
  have hget := getElem?_of_lt hpl
  obtain ⟨hg1, hkeys, he⟩ := overwrite_spec hg pos v hpl
  generalize hq1 : (⟨q.heap.set pos ⟨(entry q pos).key, v⟩, q.positionMap, q.size⟩ :
      minqueue K V) = q1 at hg1 hkeys he
  have hsz1 : q1.size = q.size := by rw [← hq1]
  have hpm1 : q1.positionMap = q.positionMap := by rw [← hq1]
  have hlen1 : q1.heap.length = q.heap.length := by rw [← hq1]; simp
  have ho' := (heapOrdered_iff q).1 ho
  -- the two repair calls, in the state after the write
  have main : ∃ q2 q3 pos2, slideUpLoop (pos + 1) q1 pos = .ok q2 ∧
      q2.positionMap k = some pos2 ∧ slideDown q2 pos2 = .ok q3 ∧ Frame q1 q3 ∧
      HeapOrdered q3 := by
    by_cases hup : pos < q.size ∧
        rank (⟨(entry q pos).key, v⟩ : Data K V) ≤ rank (entry q pos)
    · obtain ⟨hps, hrk⟩ := hup
      obtain ⟨q2, hq2, hfr2, ho2⟩ := slideUpLoop_repair (pos + 1) q1 pos (by omega) hg1.sane
        (by omega)
        (by
          intro j hj0 hj hne
          rw [hsz1] at hj
          rw [he j, he ((j - 1) / 2), if_neg hne]
          split_ifs with e
          · have := ho' j hj0 hj
            rw [e] at this
            exact le_trans hrk this
          · exact ho' j hj0 hj)
        (by
          intro hp0 c hc0 hc hcp
          rw [hsz1] at hc
          have a1 : (pos - 1) / 2 ≠ pos := by omega
          have a2 : c ≠ pos := by omega
          rw [he c, he ((pos - 1) / 2), if_neg a1, if_neg a2]
          have := ho' c hc0 hc
          rw [hcp] at this
          exact le_trans (ho' pos hp0 hps) this)
      have hg2 := hfr2.keepsGood hg1
      have hpm2 : q2.positionMap k ≠ none := by
        rw [Ne, hfr2.dom k, hpm1, hk]; simp
      obtain ⟨pos2, hpos2⟩ := Option.ne_none_iff_exists'.1 hpm2
      obtain ⟨q3, hq3, hfr3, ho3⟩ := slideDown_ordered hg2.sane ho2 pos2
      exact ⟨q2, q3, pos2, hq2, hpos2, hq3, hfr2.trans hfr3, ho3⟩
    · have hnoop : slideUpLoop (pos + 1) q1 pos = .ok q1 := by
        apply slideUpLoop_noop pos q1 pos hg1.sane (by omega)
        by_cases hps : pos < q.size
        · by_cases hp0 : pos = 0
          · exact Or.inl hp0
          · right; right
            have hrk : rank (entry q pos) ≤ rank (⟨(entry q pos).key, v⟩ : Data K V) := by
              rcases le_total (rank (⟨(entry q pos).key, v⟩ : Data K V)) (rank (entry q pos))
                with h | h
              · exact absurd ⟨hps, h⟩ hup
              · exact h
            have a1 : (pos - 1) / 2 ≠ pos := by omega
            rw [not_less_iff_rank, he pos, he ((pos - 1) / 2), if_pos rfl, if_neg a1]
            exact le_trans (ho' pos (by omega) hps) hrk
        · right; left; omega
      by_cases hps : pos < q.size
      · have hrk : rank (entry q pos) ≤ rank (⟨(entry q pos).key, v⟩ : Data K V) := by
          rcases le_total (rank (⟨(entry q pos).key, v⟩ : Data K V)) (rank (entry q pos))
            with h | h
          · exact absurd ⟨hps, h⟩ hup
          · exact h
        obtain ⟨q3, hq3, hfr3, ho3⟩ := slideDownLoop_repair (q1.size + 1) q1 pos (by omega)
          (by omega) hg1.sane (by omega)
          (by
            intro j hj0 hj hne
            rw [hsz1] at hj
            rw [he j, he ((j - 1) / 2), if_neg hne]
            split_ifs with e
            · subst e
              exact le_trans (ho' j hj0 hj) hrk
            · exact ho' j hj0 hj)
          (by
            intro hp0 c hc0 hc hcp
            rw [hsz1] at hc
            have a1 : (pos - 1) / 2 ≠ pos := by omega
            have a2 : c ≠ pos := by omega
            rw [he c, he ((pos - 1) / 2), if_neg a1, if_neg a2]
            have := ho' c hc0 hc
            rw [hcp] at this
            exact le_trans (ho' pos hp0 hps) this)
        exact ⟨q1, q3, pos, hnoop, by rw [hpm1]; exact hk, hq3, hfr3, ho3⟩
      · refine ⟨q1, q1, pos, hnoop, by rw [hpm1]; exact hk,
          slideDownLoop_beyond _ q1 pos (by omega), Frame.refl q1, ?_⟩
        rw [heapOrdered_iff]
        intro j hj0 hj
        rw [hsz1] at hj
        have a1 : j ≠ pos := by omega
        have a2 : (j - 1) / 2 ≠ pos := by omega
        rw [he j, he ((j - 1) / 2), if_neg a1, if_neg a2]
        exact ho' j hj0 hj
  obtain ⟨q2, q3, pos2, hq2, hpos2, hq3, hfr, ho3⟩ := main
  refine ⟨q3, ?_, hfr.keepsGood hg1, ho3, by rw [hfr.size_eq, hsz1], ?_⟩
  · simp only [pushinorder, hk, hget, hq1, slideUp, hq2, hpos2, hq3]
  · have := hfr.perm.map Data.key
    rw [← hkeys]
    exact this

/-- A `minpop` on a queue that is not empty: the call returns, the structural
and the heap invariant hold again, and the live entries are the old ones
without the old root, whose key has no record any more. -/
theorem minpop_spec {q : minqueue K V} (hg : Good q) (ho : HeapOrdered q) (hpos : 0 < q.size) :
    ∃ q', minpop q = .ok () q' ∧ Good q' ∧ HeapOrdered q' ∧ q'.size = q.size - 1 ∧
      (live q' ++ [entry q 0]).Perm (live q) ∧ q'.positionMap (entry q 0).key = none := by
  have hsz := hg.size_le
  have hget0 := getElem?_of_lt (q := q) (i := 0) (by omega)
  have hgetl := getElem?_of_lt (q := q) (i := q.size - 1) (by omega)
  have he : ∀ n, entry (⟨q.heap.set 0 (entry q (q.size - 1)),
      Function.update q.positionMap (entry q 0).key none, q.size - 1⟩ : minqueue K V) n
      = if n = 0 then entry q (q.size - 1) else entry q n :=
    fun n => entry_set (q := ⟨q.heap, Function.update q.positionMap (entry q 0).key none,
      q.size - 1⟩) 0 _ n hg.length_pos
  have hperm : (live (⟨q.heap.set 0 (entry q (q.size - 1)),
      Function.update q.positionMap (entry q 0).key none, q.size - 1⟩ : minqueue K V)
      ++ [entry q 0]).Perm (live q) := by
    rw [live_eq_map (by simp; omega), live_eq_map hsz]
    have hp := perm_map_swap (entry q) q.size 0 (q.size - 1) hpos (by omega)
    obtain ⟨t, ht⟩ : ∃ t, q.size = t + 1 := ⟨q.size - 1, by omega⟩
    have ht' : q.size - 1 = t := by omega
    have e1 : List.map (fun x => entry q (Equiv.swap 0 (q.size - 1) x)) (List.range q.size)
        = List.map (entry (⟨q.heap.set 0 (entry q (q.size - 1)),
            Function.update q.positionMap (entry q 0).key none, q.size - 1⟩ : minqueue K V))
            (List.range (q.size - 1)) ++ [entry q 0] := by
      rw [ht'] at he ⊢
      rw [ht, List.range_succ, List.map_append, List.map_singleton, Equiv.swap_apply_right]
      congr 1
      apply List.map_congr_left
      intro n hn
      have hn' := List.mem_range.1 hn
      rw [he n]
      split_ifs with e
      · subst e; rw [Equiv.swap_apply_left]
      · rw [Equiv.swap_apply_of_ne_of_ne e (by omega)]
    rw [← e1]
    exact hp
  generalize hq1 : (⟨q.heap.set 0 (entry q (q.size - 1)),
      Function.update q.positionMap (entry q 0).key none, q.size - 1⟩ : minqueue K V) = q1
      at he hperm
  have hsz1 : q1.size = q.size - 1 := by rw [← hq1]
  have hlen1 : q1.heap.length = q.heap.length := by rw [← hq1]; simp
  have hpm1 : q1.positionMap = Function.update q.positionMap (entry q 0).key none := by
    rw [← hq1]
  have hkperm : (liveKeys q1 ++ [(entry q 0).key]).Perm (liveKeys q) := by
    have := hperm.map Data.key
    simpa [liveKeys] using this
  have hnd : (liveKeys q1 ++ [(entry q 0).key]).Nodup := hkperm.nodup_iff.2 hg.nodup
  rw [List.nodup_append] at hnd
  have hnot : (entry q 0).key ∉ liveKeys q1 := fun h => hnd.2.2 h (List.mem_singleton_self _)
  have hg1 : Good q1 := by
    refine ⟨by rw [hlen1]; exact hg.length_pos, by rw [hlen1, hsz1]; omega, hnd.1, ?_, ?_⟩
    · intro k
      rw [hpm1, Function.update_apply]
      have hm := hkperm.mem_iff (a := k)
      rw [List.mem_append, List.mem_singleton] at hm
      split_ifs with e
      · subst e; simpa using hnot
      · rw [hg.dom k, ← hm]; simp [e]
    · intro k p
      rw [hpm1, Function.update_apply, hlen1]
      split_ifs with e
      · intro h; exact absurd h (by simp)
      · exact hg.records k p
  have ho' := (heapOrdered_iff q).1 ho
  obtain ⟨q2, hq2, hfr2, ho2⟩ : ∃ q2, slideDown q1 0 = .ok q2 ∧ Frame q1 q2 ∧ HeapOrdered q2 := by
    by_cases h0 : 0 < q1.size
    · apply slideDownLoop_repair (q1.size + 1) q1 0 (by omega) (by omega) hg1.sane h0
      · intro j hj0 hj hne
        rw [hsz1] at hj
        have a1 : j ≠ 0 := by omega
        rw [he j, he ((j - 1) / 2), if_neg a1, if_neg hne]
        exact ho' j hj0 (by omega)
      · intro h; exact absurd h (by decide)
    · refine ⟨q1, slideDownLoop_beyond _ q1 0 (by omega), Frame.refl q1, ?_⟩
      intro j _ hj
      omega
  refine ⟨q2, ?_, hfr2.keepsGood hg1, ho2, by rw [hfr2.size_eq, hsz1], ?_, ?_⟩
  · have hne : q.size ≠ 0 := by omega
    simp only [minpop, empty, hne, if_false, hget0, hgetl, hq1, hq2]
    rfl
  · exact (List.Perm.append_right _ hfr2.perm).trans hperm
  · rw [hfr2.dom, hpm1]; simp

end Lemmas7

section Lemmas8
variable {K V : Type} [LinearOrder K] [LinearOrder V] [Inhabited K] [Inhabited V]

theorem new_good (capacity : Nat) (h : 1 ≤ capacity) : Good (new capacity : minqueue K V) := by
  refine ⟨by simp [new, resize]; omega, by simp [new], by simp [liveKeys, live, new],
    by simp [liveKeys, live, new], by simp [new]⟩

theorem new_ordered (capacity : Nat) : HeapOrdered (new capacity : minqueue K V) := by
  intro i _ hi
  simp [new] at hi

/-- The key test of `pushinorder` under the structural invariant. -/
theorem record_none_iff {q : minqueue K V} (hg : Good q) (k : K) :
    q.positionMap k = none ↔ k ∉ liveKeys q := by
  rw [← hg.dom k]; simp

theorem push_inv {q q' : minqueue K V} {k : K} {v : V} (hg : Good q) (ho : HeapOrdered q)
    (h : pushinorder q k v = .ok q') : Good q' ∧ HeapOrdered q' := by
  cases hk : q.positionMap k with
  | none =>
    obtain ⟨q'', h', hg', ho', -⟩ := push_new hg ho k v hk
    rw [h] at h'; cases h'
    exact ⟨hg', ho'⟩
  | some pos =>
    obtain ⟨q'', h', hg', ho', -⟩ := push_update hg ho k v hk
    rw [h] at h'; cases h'
    exact ⟨hg', ho'⟩

theorem minpop_size_pos {q q' : minqueue K V} (h : minpop q = .ok () q') : 0 < q.size := by
  by_contra h0
  have : q.size = 0 := by omega
  simp [minpop, empty, this] at h

theorem pop_inv {q q' : minqueue K V} (hg : Good q) (ho : HeapOrdered q)
    (h : minpop q = .ok () q') : Good q' ∧ HeapOrdered q' := by
  obtain ⟨q'', h', hg', ho', -⟩ := minpop_spec hg ho (minpop_size_pos h)
  rw [h] at h'; cases h'
  exact ⟨hg', ho'⟩

theorem reachable_inv {q : minqueue K V} (h : Reachable q) : Good q ∧ HeapOrdered q := by
  induction h with
  | init c hc => exact ⟨new_good c hc, new_ordered c⟩
  | push q q' k v _ hp ih => exact push_inv ih.1 ih.2 hp
  | pop q q' _ hp ih => exact pop_inv ih.1 ih.2 hp

theorem counted_reachable {q : minqueue K V} {i p : Nat} (h : Counted q i p) : Reachable q := by
  induction h with
  | init c hc => exact Reachable.init c hc
  | pushNew q q' k v i p _ _ hp ih => exact Reachable.push q q' k v ih hp
  | pushOld q q' k v i p _ _ hp ih => exact Reachable.push q q' k v ih hp
  | pop q q' i p _ hp ih => exact Reachable.pop q q' ih hp

theorem pushAll_reachable : ∀ (l : List (K × V)) (q q' : minqueue K V), Reachable q →
    pushAll q l = .ok q' → Reachable q' := by
  intro l
  induction l with
  | nil => intro q q' hr h; simp [pushAll] at h; exact h ▸ hr
  | cons a rest ih =>
    intro q q' hr h
    obtain ⟨k, v⟩ := a
    cases hp : pushinorder q k v with
    | error e => simp [pushAll, hp] at h
    | ok q1 =>
      simp only [pushAll, hp] at h
      exact ih q1 q' (Reachable.push q q1 k v hr hp) h

/-- Pushing pairs with pairwise distinct keys, none of them in the queue:
every call returns, and the live pairs are the old ones and the pushed ones. -/
theorem pushAll_spec : ∀ (l : List (K × V)) (q : minqueue K V), Good q → HeapOrdered q →
    (l.map Prod.fst).Nodup → (∀ k, k ∈ l.map Prod.fst → k ∉ liveKeys q) →
    ∃ q', pushAll q l = .ok q' ∧ Good q' ∧ HeapOrdered q' ∧ (pairs q').Perm (l ++ pairs q) := by
  intro l
  induction l with
  | nil =>
    intro q hg ho _ _
    exact ⟨q, rfl, hg, ho, List.Perm.refl _⟩
  | cons a rest ih =>
    intro q hg ho hnd hdis
    obtain ⟨k, v⟩ := a
    simp only [List.map_cons, List.nodup_cons] at hnd
    have hk : q.positionMap k = none :=
      (record_none_iff hg k).2 (hdis k (by simp))
    obtain ⟨q1, hp, hg1, ho1, -, hperm⟩ := push_new hg ho k v hk
    have hkeys : (liveKeys q1).Perm (k :: liveKeys q) := by
      have := hperm.map Data.key
      simpa [liveKeys] using this
    obtain ⟨q', hq', hg', ho', hperm'⟩ := ih q1 hg1 ho1 hnd.2 (by
      intro k' hk' hmem
      rw [hkeys.mem_iff, List.mem_cons] at hmem
      rcases hmem with e | e
      · subst e; exact hnd.1 hk'
      · exact hdis k' (by simp only [List.map_cons, List.mem_cons]; exact Or.inr hk') e)
    refine ⟨q', by simp only [pushAll, hp, hq'], hg', ho', ?_⟩
    refine hperm'.trans ?_
    have h1 : (pairs q1).Perm ((k, v) :: pairs q) := by
      have := hperm.map (fun d => (d.key, d.value))
      simpa [pairs] using this
    refine (List.Perm.append_left rest h1).trans ?_
    simp only [List.cons_append]
    exact List.perm_middle

theorem pairLE_iff_rank (a b : Data K V) :
    pairLE (a.key, a.value) (b.key, b.value) ↔ rank a ≤ rank b := by
  simp only [pairLE, rank, Prod.Lex.le_iff]

/-- Draining a queue that satisfies the invariants: every call returns, and
the pairs read are the live pairs in ascending order. -/
theorem drain_spec : ∀ (n : Nat) (q : minqueue K V), Good q → HeapOrdered q → q.size = n →
    ∃ out, drain n q = some out ∧ out.Perm (pairs q) ∧ out.Sorted pairLE := by
  intro n
  induction n with
  | zero =>
    intro q hg _ hn
    refine ⟨[], by simp [drain, empty, hn], ?_, List.sorted_nil⟩
    simp [pairs, live, hn]
  | succ n ih =>
    intro q hg ho hn
    have hpos : 0 < q.size := by omega
    obtain ⟨q', hpop, hg', ho', hsz', hperm, -⟩ := minpop_spec hg ho hpos
    obtain ⟨rest, hrest, hrp, hrs⟩ := ih q' hg' ho' (by omega)
    have hget0 := getElem?_of_lt (q := q) (i := 0) hg.length_pos
    have hne : q.size ≠ 0 := by omega
    refine ⟨((entry q 0).key, (entry q 0).value) :: rest, ?_, ?_, ?_⟩
    · simp [drain, empty, hne, minfront, minvalue, hget0, hpop, hrest]
    · have h1 : (pairs q' ++ [((entry q 0).key, (entry q 0).value)]).Perm (pairs q) := by
        have := hperm.map (fun d => (d.key, d.value))
        simpa [pairs] using this
      refine List.Perm.trans ?_ h1
      refine List.Perm.trans ?_ (List.perm_append_singleton _ _).symm
      exact List.Perm.cons _ hrp
    · rw [List.sorted_cons]
      refine ⟨?_, hrs⟩
      intro b hb
      have hb' : b ∈ pairs q' := hrp.mem_iff.1 hb
      obtain ⟨d, hd, rfl⟩ := List.mem_map.1 hb'
      have hd' : d ∈ live q := hperm.mem_iff.1 (List.mem_append_left _ hd)
      obtain ⟨i, hi, rfl⟩ := (mem_live_iff hg.size_le d).1 hd'
      exact (pairLE_iff_rank _ _).2 (root_min ho i hi)

end Lemmas8

section General
variable {K V : Type} [LinearOrder K] [LinearOrder V] [Inhabited K] [Inhabited V]

theorem noElement_false {q : minqueue K V} {i p : Nat} (h : noElement q i p = .ok false) :
    i < q.size := by
  by_contra hn
  rw [noElement_of_le (not_lt.mp hn)] at h
  cases h

/-- Whatever the state, `getIndexMin` returns `-1` or one of its two
arguments, and an argument it returns is below `size`. -/
theorem getIndexMin_cases {q : minqueue K V} {i j : Nat} {m : Int}
    (h : getIndexMin q i j = .ok m) :
    m = -1 ∨ (m = (i : Int) ∧ i < q.size) ∨ (m = (j : Int) ∧ j < q.size) := by
  unfold getIndexMin at h
  split at h
  · cases h
  · split at h
    · cases h
    · cases h; exact Or.inl rfl
    · rename_i h2
      cases h; exact Or.inr (Or.inr ⟨rfl, noElement_false h2⟩)
  · rename_i h1
    split at h
    · cases h
    · split at h
      · cases h
      · cases h; exact Or.inl rfl
      · cases h; exact Or.inr (Or.inl ⟨rfl, noElement_false h1⟩)
    · rename_i h2
      split at h
      · split at h
        · cases h; exact Or.inr (Or.inl ⟨rfl, noElement_false h1⟩)
        · cases h; exact Or.inr (Or.inr ⟨rfl, noElement_false h2⟩)
      · cases h

theorem swap_ok {q q' : minqueue K V} {i j : Nat} (h : swap q i j = .ok q') :
    i < q.heap.length ∧ j < q.heap.length := by
  constructor
  · by_contra hn
    simp [swap, List.getElem?_eq_none (not_lt.mp hn)] at h
  · by_contra hn
    unfold swap at h
    split at h
    · cases h
    · simp [List.getElem?_eq_none (not_lt.mp hn)] at h

/-- The state `swap` returns, for any two slots of the vector. -/
theorem swap_eq_any {q : minqueue K V} {i j : Nat} (hi : i < q.heap.length)
    (hj : j < q.heap.length) :
    swap q i j = .ok
      { heap := (q.heap.set i (entry q j)).set j (entry q i),
        positionMap := Function.update
          (Function.update q.positionMap (entry q j).key (some i)) (entry q i).key (some j),
        size := q.size } := by
  by_cases hij : i = j
  · subst hij
    simp [swap, getElem?_of_lt hi, List.getElem?_set, hi]
  · exact swap_eq hi hj hij

theorem swap_entry {q : minqueue K V} {i j : Nat} (hi : i < q.heap.length)
    (hj : j < q.heap.length) (pm : K → Option Nat) (sz n : Nat) :
    entry (⟨(q.heap.set i (entry q j)).set j (entry q i), pm, sz⟩ : minqueue K V) n
      = if n = j then entry q i else if n = i then entry q j else entry q n := by
  simp only [entry, List.getElem?_set, List.length_set]
  by_cases h1 : n = j
  · subst h1; simp [hj]
  · by_cases h2 : n = i
    · subst h2; simp [hi, h1, Ne.symm h1]
    · simp [Ne.symm h1, Ne.symm h2, h1, h2]

theorem swap_shape {q q' : minqueue K V} {i j : Nat} (h : swap q i j = .ok q') :
    q'.size = q.size ∧ q'.heap.length = q.heap.length := by
  obtain ⟨hi, hj⟩ := swap_ok h
  rw [swap_eq_any hi hj] at h
  cases h
  simp

theorem consistent_inj {q : minqueue K V} (hc : IndexConsistent q) {a b : Nat}
    (ha : a < q.size) (hb : b < q.size) (h : (entry q a).key = (entry q b).key) : a = b := by
  have h1 := hc a ha
  have h2 := hc b hb
  rw [h, h2] at h1
  exact (Option.some.inj h1).symm

theorem consistent_sane {q : minqueue K V} (hsz : q.size ≤ q.heap.length)
    (hc : IndexConsistent q) : Sane q :=
  ⟨hsz, fun i hi => by rw [hc i hi]; simp⟩

/-- A swap of two live slots keeps index consistency. -/
theorem swap_consistent {q q' : minqueue K V} {i j : Nat} (hsz : q.size ≤ q.heap.length)
    (hc : IndexConsistent q) (hi : i < q.size) (hj : j < q.size) (h : swap q i j = .ok q') :
    IndexConsistent q' := by
  have hi' : i < q.heap.length := by omega
  have hj' : j < q.heap.length := by omega
  rw [swap_eq_any hi' hj'] at h
  cases h
  intro n hn
  have hn' : n < q.size := hn
  rw [swap_entry hi' hj']
  simp only [Function.update_apply]
  by_cases h1 : n = j
  · subst h1; simp
  · by_cases h2 : n = i
    · subst h2
      have : (entry q j).key ≠ (entry q n).key := fun e => h1 (consistent_inj hc hj hi e).symm
      simp [h1, this]
    · have a1 : (entry q n).key ≠ (entry q i).key := fun e => h2 (consistent_inj hc hn' hi e)
      have a2 : (entry q n).key ≠ (entry q j).key := fun e => h1 (consistent_inj hc hn' hj e)
      simp [h1, h2, a1, a2, hc n hn']

/-- The loop of `slideUp`, on any state: size and vector length stay, and so
does index consistency. -/
theorem slideUpLoop_keeps (fuel : Nat) : ∀ (q q' : minqueue K V) (i : Nat),
    slideUpLoop fuel q i = .ok q' →
    q'.size = q.size ∧ q'.heap.length = q.heap.length ∧
      (q.size ≤ q.heap.length → IndexConsistent q → IndexConsistent q') := by
  induction fuel with
  | zero => intro q q' i h; cases h
  | succ fuel ih =>
    intro q q' i h
    simp only [slideUpLoop] at h
    split at h
    · rename_i hi0
      split at h
      · cases h
      · rename_i m hm
        split at h
        · rename_i hmi
          split at h
          · cases h
          · rename_i q1 hsw
            obtain ⟨e1, e2, e3⟩ := ih q1 q' ((i - 1) / 2) h
            obtain ⟨s1, s2⟩ := swap_shape hsw
            refine ⟨e1.trans s1, e2.trans s2, ?_⟩
            intro hsz hc
            have hilt : i < q.size := by
              rcases getIndexMin_cases hm with c | ⟨_, c⟩ | ⟨c1, c2⟩
              · omega
              · exact c
              · omega
            exact e3 (by omega) (swap_consistent hsz hc hilt (by omega) hsw)
        · cases h; exact ⟨rfl, rfl, fun _ hc => hc⟩
    · cases h; exact ⟨rfl, rfl, fun _ hc => hc⟩

/-- The loop of `slideDown`, on any state: size and vector length stay, and
so does index consistency. -/
theorem slideDownLoop_keeps (fuel : Nat) : ∀ (q q' : minqueue K V) (i : Nat),
    slideDownLoop fuel q i = .ok q' →
    q'.size = q.size ∧ q'.heap.length = q.heap.length ∧
      (q.size ≤ q.heap.length → IndexConsistent q → IndexConsistent q') := by
  induction fuel with
  | zero => intro q q' i h; cases h
  | succ fuel ih =>
    intro q q' i h
    simp only [slideDownLoop] at h
    split at h
    · cases h
    · rename_i mc hmc
      split at h
      · rename_i hcond
        split at h
        · cases h
        · rename_i m hm
          split at h
          · rename_i hmm
            split at h
            · cases h
            · rename_i q1 hsw
              obtain ⟨e1, e2, e3⟩ := ih q1 q' mc.toNat h
              obtain ⟨s1, s2⟩ := swap_shape hsw
              refine ⟨e1.trans s1, e2.trans s2, ?_⟩
              intro hsz hc
              have hlt : mc.toNat < q.size := by
                rcases getIndexMin_cases hmc with c | ⟨c1, c2⟩ | ⟨c1, c2⟩
                · exact absurd c hcond.2
                · rw [c1]; simpa using c2
                · rw [c1]; simpa using c2
              exact e3 (by omega) (swap_consistent hsz hc hcond.1 hlt hsw)
          · cases h; exact ⟨rfl, rfl, fun _ hc => hc⟩
      · cases h; exact ⟨rfl, rfl, fun _ hc => hc⟩

end General

section Consistency
variable {K V : Type} [LinearOrder K] [LinearOrder V] [Inhabited K] [Inhabited V]

/-- Index consistency with the map defined exactly on the live keys gives the
structural invariant. -/
theorem good_of_consistent {q : minqueue K V} (hcap : 1 ≤ q.heap.length)
    (hsz : q.size ≤ q.heap.length) (hc : IndexConsistent q)
    (hdom : ∀ k, q.positionMap k ≠ none ↔ k ∈ liveKeys q) : Good q := by
  refine ⟨hcap, hsz, ?_, hdom, ?_⟩
  · unfold liveKeys
    rw [live_eq_map hsz, List.map_map]
    apply List.Nodup.map_on _ (List.nodup_range _)
    intro a ha b hb hab
    exact consistent_inj hc (List.mem_range.1 ha) (List.mem_range.1 hb) hab
  · intro k p hp
    have hk : k ∈ liveKeys q := (hdom k).1 (by rw [hp]; simp)
    obtain ⟨d, hd, rfl⟩ := List.mem_map.1 hk
    obtain ⟨i, hi, rfl⟩ := (mem_live_iff hsz d).1 hd
    rw [hc i hi] at hp
    have := Option.some.inj hp
    omega

theorem slideUp_keeps {q q' : minqueue K V} {i : Nat} (h : slideUp q i = .ok q') :
    q'.size = q.size ∧ q'.heap.length = q.heap.length ∧
      (q.size ≤ q.heap.length → IndexConsistent q → IndexConsistent q') :=
  slideUpLoop_keeps (i + 1) q q' i h

theorem slideDown_keeps {q q' : minqueue K V} {i : Nat} (h : slideDown q i = .ok q') :
    q'.size = q.size ∧ q'.heap.length = q.heap.length ∧
      (q.size ≤ q.heap.length → IndexConsistent q → IndexConsistent q') :=
  slideDownLoop_keeps (q.size + 1) q q' i h

theorem length_resize (l : List (Data K V)) (n : Nat) : (resize l n).length = n := by
  simp [resize]; omega

/-- The vector never gets shorter in `pushinorder`, on any state. -/
theorem pushinorder_length {q q' : minqueue K V} {k : K} {v : V}
    (h : pushinorder q k v = .ok q') : q.heap.length ≤ q'.heap.length := by
  simp only [pushinorder] at h
  split at h
  · split at h
    · cases h
    · split at h
      · cases h
      · rename_i q2 hup
        split at h
        · cases h
        · have e1 := (slideUp_keeps hup).2.1
          have e2 := (slideDown_keeps h).2.1
          simp only [List.length_set] at e1
          omega
  · have hl : q.heap.length ≤
        (if q.size = q.heap.length then resize q.heap (q.size * 2) else q.heap).length := by
      split
      · rw [length_resize]; omega
      · exact le_refl _
    generalize (if q.size = q.heap.length then resize q.heap (q.size * 2) else q.heap) = heap1
      at h hl
    split at h
    · cases h
    · split at h
      · cases h
      · split at h
        · cases h
        · rename_i q2 hup
          split at h
          · cases h
          · have e1 := (slideUp_keeps hup).2.1
            have e2 := (slideDown_keeps h).2.1
            simp only [List.length_set] at e1
            omega

/-- The call `pushinorder` keeps index consistency. -/
theorem pushinorder_consistent {q q' : minqueue K V} {k : K} {v : V} (hg : Good q)
    (hc : IndexConsistent q) (h : pushinorder q k v = .ok q') : IndexConsistent q' := by
  simp only [pushinorder] at h
  split at h
  · rename_i pos hk
    split at h
    · cases h
    · rename_i d hd
      have hpl : pos < q.heap.length := hg.records k pos hk
      have hde : d = entry q pos := by
        rw [getElem?_of_lt hpl] at hd; exact (Option.some.inj hd).symm
      subst hde
      obtain ⟨hg1, -, he⟩ := overwrite_spec hg pos v hpl
      have hc1 : IndexConsistent (⟨q.heap.set pos ⟨(entry q pos).key, v⟩, q.positionMap,
          q.size⟩ : minqueue K V) := by
        intro n hn
        rw [he n]
        split_ifs with e
        · subst e; exact hc n hn
        · exact hc n hn
      split at h
      · cases h
      · rename_i q2 hup
        split at h
        · cases h
        · obtain ⟨s1, s2, s3⟩ := slideUp_keeps hup
          have hc2 := s3 hg1.size_le hc1
          exact (slideDown_keeps h).2.2 (by rw [s1, s2]; exact hg1.size_le) hc2
  · rename_i hk
    obtain ⟨hlen, hlen2, hpre⟩ := grow_spec hg
    generalize (if q.size = q.heap.length then resize q.heap (q.size * 2) else q.heap) = heap1
      at h hlen hlen2 hpre
    obtain ⟨hg1, -, he1, he2⟩ := append_spec hg k v hk heap1 hlen hlen2 hpre
    have hc1 : IndexConsistent (⟨heap1.set q.size ⟨k, v⟩,
        Function.update q.positionMap k (some q.size), q.size + 1⟩ : minqueue K V) := by
      intro n hn
      have hn' : n < q.size + 1 := hn
      by_cases e : n = q.size
      · subst e; rw [he2]; simp
      · have hn2 : n < q.size := by omega
        rw [he1 n hn2]
        have hne : (entry q n).key ≠ k := by
          intro e'
          have := hc n hn2
          rw [e', hk] at this
          cases this
        simp only [Function.update_apply, if_neg hne]
        exact hc n hn2
    split at h
    · cases h
    · split at h
      · cases h
      · split at h
        · cases h
        · rename_i q2 hup
          split at h
          · cases h
          · obtain ⟨s1, s2, s3⟩ := slideUp_keeps hup
            have hc2 := s3 hg1.size_le hc1
            exact (slideDown_keeps h).2.2 (by rw [s1, s2]; exact hg1.size_le) hc2

theorem minpop_length {q q' : minqueue K V} (h : minpop q = .ok () q') :
    q'.heap.length = q.heap.length := by
  unfold minpop at h
  split at h
  · cases h
  · split at h
    · cases h
    · split at h
      · cases h
      · dsimp only at h
        split at h
        · cases h
        · rename_i q2 hd
          cases h
          have := (slideDown_keeps hd).2.1
          simpa using this

end Consistency

section Termination
variable {K V : Type} [LinearOrder K] [LinearOrder V] [Inhabited K] [Inhabited V]

theorem noElement_fault {q : minqueue K V} {i p : Nat} {e : Fault}
    (h : noElement q i p = .error e) : e = .outOfBounds := by
  unfold noElement at h
  split at h
  · cases h
  · split at h
    · cases h; rfl
    · cases h

theorem getIndexMin_fault {q : minqueue K V} {i j : Nat} {e : Fault}
    (h : getIndexMin q i j = .error e) : e = .outOfBounds := by
  unfold getIndexMin at h
  split at h
  · rename_i h1; cases h; exact noElement_fault h1
  · split at h
    · rename_i h2; cases h; exact noElement_fault h2
    · cases h
    · cases h
  · split at h
    · rename_i h2; cases h; exact noElement_fault h2
    · split at h
      · rename_i h3; cases h3
      · cases h
      · cases h
    · split at h
      · split at h <;> cases h
      · cases h; rfl

theorem swap_fault {q : minqueue K V} {i j : Nat} {e : Fault}
    (h : swap q i j = .error e) : e = .outOfBounds := by
  unfold swap at h
  split at h
  · cases h; rfl
  · split at h
    · cases h; rfl
    · dsimp only at h
      split at h
      · cases h; rfl
      · split at h
        · cases h; rfl
        · cases h

/-- With more fuel than the start index the loop of `slideUp` does not run
out of fuel, on any state. -/
theorem slideUpLoop_ne_fuel (fuel : Nat) : ∀ (q : minqueue K V) (i : Nat), i < fuel →
    slideUpLoop fuel q i ≠ .error .outOfFuel := by
  induction fuel with
  | zero => intro q i h; omega
  | succ fuel ih =>
    intro q i hi h
    simp only [slideUpLoop] at h
    split at h
    · rename_i hi0
      split at h
      · rename_i e he
        cases h
        exact absurd (getIndexMin_fault he) (by decide)
      · split at h
        · split at h
          · rename_i e he
            cases h
            exact absurd (swap_fault he) (by decide)
          · exact ih _ _ (by omega) h
        · cases h
    · cases h

/-- One more round of fuel than needed changes nothing in `slideUp`. -/
theorem slideUpLoop_fuel (fuel : Nat) : ∀ (q : minqueue K V) (i : Nat), i < fuel →
    slideUpLoop (fuel + 1) q i = slideUpLoop fuel q i := by
  induction fuel with
  | zero => intro q i h; omega
  | succ fuel ih =>
    intro q i hi
    rw [slideUpLoop, slideUpLoop]
    split
    · rename_i hi0
      split
      · rfl
      · split
        · split
          · rfl
          · exact ih _ _ (by omega)
        · rfl
    · rfl

theorem slideUpLoop_enough {q : minqueue K V} {i : Nat} (fuel : Nat) (h : i < fuel) :
    slideUpLoop fuel q i = slideUp q i := by
  unfold slideUp
  induction fuel with
  | zero => omega
  | succ fuel ih =>
    by_cases e : i = fuel
    · rw [e]
    · rw [slideUpLoop_fuel fuel q i (by omega), ih (by omega)]

theorem slideUpTrace_drop (fuel : Nat) : ∀ (q : minqueue K V) (i : Nat),
    dropTrace (slideUpTrace fuel q i) = slideUpLoop fuel q i := by
  induction fuel with
  | zero => intro q i; rfl
  | succ fuel ih =>
    intro q i
    rw [slideUpTrace, slideUpLoop]
    split
    · split
      · rfl
      · split
        · split
          · rfl
          · rename_i q1 _
            rw [← ih q1 ((i - 1) / 2)]
            cases slideUpTrace fuel q1 ((i - 1) / 2) <;> rfl
        · rfl
    · rfl

/-- The indices that `slideUp` visits: each is the parent of the one before,
and there are at most `log₂ (i + 1)` of them. -/
theorem slideUpTrace_path (fuel : Nat) : ∀ (q q' : minqueue K V) (i : Nat) (path : List Nat),
    slideUpTrace fuel q i = .ok (q', path) →
    List.Chain (fun a b => b = (a - 1) / 2 ∧ b < a) i path ∧ 2 ^ path.length ≤ i + 1 := by
  induction fuel with
  | zero => intro q q' i path h; cases h
  | succ fuel ih =>
    intro q q' i path h
    simp only [slideUpTrace] at h
    split at h
    · rename_i hi0
      split at h
      · cases h
      · split at h
        · split at h
          · cases h
          · split at h
            · cases h
            · rename_i r hr
              cases h
              obtain ⟨c1, c2⟩ := ih _ r.1 _ r.2 hr
              refine ⟨List.Chain.cons ⟨rfl, by omega⟩ c1, ?_⟩
              simp only [List.length_cons, pow_succ]
              omega
        · cases h; exact ⟨List.Chain.nil, by simp⟩
    · cases h; exact ⟨List.Chain.nil, by simp⟩

end Termination

section TerminationDown
variable {K V : Type} [LinearOrder K] [LinearOrder V] [Inhabited K] [Inhabited V]

/-- The child that a round of `slideDown` moves to: one of the two child
indices, and below `size`. -/
theorem minChild_cases {q : minqueue K V} {i : Nat} {mc : Int}
    (h : getIndexMin q (i * 2 + 1) (i * 2 + 2) = .ok mc) (hne : mc ≠ -1) :
    (mc.toNat = 2 * i + 1 ∨ mc.toNat = 2 * i + 2) ∧ mc.toNat < q.size := by
  rcases getIndexMin_cases h with c | ⟨c1, c2⟩ | ⟨c1, c2⟩
  · exact absurd c hne
  · subst c1; simp only [Int.toNat_ofNat]; omega
  · subst c1; simp only [Int.toNat_ofNat]; omega

/-- With enough fuel the loop of `slideDown` does not run out of fuel, on any
state. -/
theorem slideDownLoop_ne_fuel (fuel : Nat) : ∀ (q : minqueue K V) (i : Nat), 1 ≤ fuel →
    q.size < fuel + i → slideDownLoop fuel q i ≠ .error .outOfFuel := by
  induction fuel with
  | zero => intro q i h; omega
  | succ fuel ih =>
    intro q i _ hf h
    simp only [slideDownLoop] at h
    split at h
    · rename_i e he
      cases h
      exact absurd (getIndexMin_fault he) (by decide)
    · rename_i mc hmc
      split at h
      · rename_i hcond
        obtain ⟨hch, hlt⟩ := minChild_cases hmc hcond.2
        split at h
        · rename_i e he
          cases h
          exact absurd (getIndexMin_fault he) (by decide)
        · split at h
          · split at h
            · rename_i e he
              cases h
              exact absurd (swap_fault he) (by decide)
            · rename_i q1 hsw
              have := (swap_shape hsw).1
              exact ih q1 _ (by omega) (by omega) h
          · cases h
      · cases h

/-- One more round of fuel than needed changes nothing in `slideDown`. -/
theorem slideDownLoop_fuel (fuel : Nat) : ∀ (q : minqueue K V) (i : Nat), 1 ≤ fuel →
    q.size < fuel + i → slideDownLoop (fuel + 1) q i = slideDownLoop fuel q i := by
  induction fuel with
  | zero => intro q i h; omega
  | succ fuel ih =>
    intro q i _ hf
    rw [slideDownLoop, slideDownLoop]
    split
    · rfl
    · rename_i mc hmc
      split
      · rename_i hcond
        obtain ⟨hch, hlt⟩ := minChild_cases hmc hcond.2
        split
        · rfl
        · split
          · split
            · rfl
            · rename_i q1 hsw
              have := (swap_shape hsw).1
              exact ih q1 _ (by omega) (by omega)
          · rfl
      · rfl

theorem slideDownLoop_enough {q : minqueue K V} {i : Nat} (fuel : Nat) (h : q.size < fuel) :
    slideDownLoop fuel q i = slideDown q i := by
  unfold slideDown
  induction fuel with
  | zero => omega
  | succ fuel ih =>
    by_cases e : q.size = fuel
    · rw [e]
    · rw [slideDownLoop_fuel fuel q i (by omega) (by omega), ih (by omega)]

theorem slideDownTrace_drop (fuel : Nat) : ∀ (q : minqueue K V) (i : Nat),
    dropTrace (slideDownTrace fuel q i) = slideDownLoop fuel q i := by
  induction fuel with
  | zero => intro q i; rfl
  | succ fuel ih =>
    intro q i
    rw [slideDownTrace, slideDownLoop]
    split
    · rfl
    · rename_i mc hmc
      split
      · split
        · rfl
        · split
          · split
            · rfl
            · rename_i q1 hsw
              rw [← ih q1 mc.toNat]
              cases slideDownTrace fuel q1 mc.toNat <;> rfl
          · rfl
      · rfl

/-- The indices that `slideDown` visits: each is a child of the one before
and below `size`, so there are at most `log₂ size` of them. -/
theorem slideDownTrace_path (fuel : Nat) : ∀ (q q' : minqueue K V) (i : Nat) (path : List Nat),
    slideDownTrace fuel q i = .ok (q', path) →
    List.Chain (fun a b => (b = 2 * a + 1 ∨ b = 2 * a + 2) ∧ a < b ∧ b < q.size) i path ∧
      (q.size ≤ i → path = []) ∧ (i < q.size → 2 ^ path.length * (i + 1) ≤ q.size) := by
  induction fuel with
  | zero => intro q q' i path h; cases h
  | succ fuel ih =>
    intro q q' i path h
    simp only [slideDownTrace] at h
    split at h
    · cases h
    · rename_i mc hmc
      split at h
      · rename_i hcond
        obtain ⟨hch, hlt⟩ := minChild_cases hmc hcond.2
        split at h
        · cases h
        · split at h
          · split at h
            · cases h
            · rename_i q1 hsw
              split at h
              · cases h
              · rename_i r hr
                cases h
                have hs := (swap_shape hsw).1
                obtain ⟨c1, c2, c3⟩ := ih _ r.1 _ r.2 hr
                rw [hs] at c1 c2 c3
                refine ⟨List.Chain.cons ⟨hch, by omega, hlt⟩ c1, fun hle => by omega, ?_⟩
                intro _
                have := c3 hlt
                simp only [List.length_cons, pow_succ]
                calc 2 ^ r.2.length * 2 * (i + 1) = 2 ^ r.2.length * (2 * (i + 1)) := by ring
                  _ ≤ 2 ^ r.2.length * (mc.toNat + 1) :=
                      Nat.mul_le_mul_left _ (by omega)
                  _ ≤ q.size := this
          · cases h
            exact ⟨List.Chain.nil, fun _ => rfl, fun hi => by simpa using hi⟩
      · cases h
        exact ⟨List.Chain.nil, fun _ => rfl, fun hi => by simpa using hi⟩

theorem trace_length_le_log {n len a : Nat} (h : 2 ^ len * (a + 1) ≤ n) : len ≤ Nat.log 2 n := by
  apply Nat.le_log_of_pow_le (by decide)
  calc 2 ^ len = 2 ^ len * 1 := by ring
    _ ≤ 2 ^ len * (a + 1) := Nat.mul_le_mul_left _ (by omega)
    _ ≤ n := h

end TerminationDown

section Fill
variable {K V : Type} [LinearOrder K] [LinearOrder V] [Inhabited K] [Inhabited V]

theorem take_succ_set {α : Type} (l : List α) (i : Nat) (x : α) (h : i < l.length) :
    (l.set i x).take (i + 1) = l.take i ++ [x] := by
  rw [List.take_succ, List.getElem?_set_self (by simpa using h)]
  congr 1
  apply List.ext_getElem?
  intro n
  rw [List.getElem?_take, List.getElem?_take]
  split
  · rw [List.getElem?_set_ne (by omega)]
  · rfl

/-- The loop of the fill constructor on a vector with room for the keys left:
it returns, the slots from `i` on hold the keys in order with the initial
value, and the map gets the record `i + j` for the `j`-th key. -/
theorem fillFrom_spec (v0 : V) : ∀ (rest : List K) (i : Nat) (q : minqueue K V),
    q.heap.length = i + rest.length →
    ∃ q', fillFrom v0 rest i q = .ok q' ∧ q'.size = q.size ∧
      q'.heap = q.heap.take i ++ rest.map (fun k => (⟨k, v0⟩ : Data K V)) ∧
      (∀ k, k ∉ rest → q'.positionMap k = q.positionMap k) ∧
      (rest.Nodup → ∀ j k, rest[j]? = some k → q'.positionMap k = some (i + j)) := by
  intro rest
  induction rest with
  | nil =>
    intro i q hlen
    refine ⟨q, rfl, rfl, ?_, fun _ _ => rfl, ?_⟩
    · simp only [List.map_nil, List.append_nil]
      exact (List.take_of_length_le (by simpa using hlen.le)).symm
    · intro _ j k h; simp at h
  | cons key rest ih =>
    intro i q hlen
    have hi : i < q.heap.length := by simp at hlen; omega
    obtain ⟨q', hq', hsz, hheap, hmap, hidx⟩ := ih (i + 1)
      (⟨q.heap.set i ⟨key, v0⟩, Function.update q.positionMap key (some i), q.size⟩ :
        minqueue K V)
      (by simp at hlen ⊢; omega)
    refine ⟨q', ?_, hsz, ?_, ?_, ?_⟩
    · simp only [fillFrom, getElem?_of_lt hi, List.getElem?_set_self hi, List.set_set]
      exact hq'
    · rw [hheap]
      show (q.heap.set i ⟨key, v0⟩).take (i + 1) ++ _ = _
      rw [take_succ_set _ _ _ hi]
      simp
    · intro k hk
      simp only [List.mem_cons, not_or] at hk
      rw [hmap k hk.2]
      show Function.update q.positionMap key (some i) k = _
      rw [Function.update_noteq hk.1]
    · intro hnd j k hj
      rw [List.nodup_cons] at hnd
      cases j with
      | zero =>
        simp only [List.getElem?_cons_zero, Option.some.injEq] at hj
        subst hj
        rw [hmap key hnd.1]
        show Function.update q.positionMap key (some i) key = _
        rw [Function.update_same]
        rfl
      | succ j =>
        simp only [List.getElem?_cons_succ] at hj
        rw [hidx hnd.2 j k hj]
        congr 1
        omega

/-- The state the fill constructor builds. -/
theorem fill_spec (keys : List K) (v0 : V) :
    ∃ q, fill keys v0 = .ok q ∧ q.size = keys.length ∧
      q.heap = keys.map (fun k => (⟨k, v0⟩ : Data K V)) ∧
      (∀ k, k ∉ keys → q.positionMap k = none) ∧
      (keys.Nodup → ∀ j k, keys[j]? = some k → q.positionMap k = some j) := by
  obtain ⟨q', hq', -, hheap, hmap, hidx⟩ := fillFrom_spec v0 keys 0
    (⟨resize [] keys.length, fun _ => none, 0⟩ : minqueue K V)
    (by simp [length_resize])
  refine ⟨{ q' with size := keys.length }, by simp only [fill, hq'], rfl, ?_, hmap, ?_⟩
  · show q'.heap = _
    rw [hheap]; simp
  · intro hnd j k hj
    have := hidx hnd j k hj
    simpa using this

theorem pairLE_antisymm (a b : K × V) (h1 : pairLE a b) (h2 : pairLE b a) : a = b := by
  unfold pairLE at h1 h2
  rcases h1 with h1 | ⟨e1, l1⟩
  · rcases h2 with h2 | ⟨e2, _⟩
    · exact absurd h1 (lt_asymm h2)
    · rw [e2] at h1; exact absurd h1 (lt_irrefl _)
  · rcases h2 with h2 | ⟨_, l2⟩
    · rw [e1] at h2; exact absurd h2 (lt_irrefl _)
    · exact Prod.ext (le_antisymm l1 l2) e1

/-- On a state that satisfies the invariants, `size` rounds of `minfront` and
`minpop` return the keys that the draining loop reads, and leave the queue
empty. -/
theorem rounds_spec : ∀ (n : Nat) (q : minqueue K V), Good q → HeapOrdered q → q.size = n →
    ∃ out q', drain n q = some out ∧ rounds n q = some (out.map Prod.fst, q') ∧
      q'.size = 0 := by
  intro n
  induction n with
  | zero =>
    intro q hg _ hn
    exact ⟨[], q, by simp [drain, empty, hn], rfl, hn⟩
  | succ n ih =>
    intro q hg ho hn
    have hpos : 0 < q.size := by omega
    obtain ⟨q1, hpop, hg1, ho1, hsz1, -, -⟩ := minpop_spec hg ho hpos
    obtain ⟨rest, q', hdr, hro, hq'⟩ := ih q1 hg1 ho1 (by omega)
    have hget0 := getElem?_of_lt (q := q) (i := 0) hg.length_pos
    have hne : q.size ≠ 0 := by omega
    refine ⟨((entry q 0).key, (entry q 0).value) :: rest, q', ?_, ?_, hq'⟩
    · simp [drain, empty, hne, minfront, minvalue, hget0, hpop, hdr]
    · simp [rounds, empty, hne, minfront, hget0, hpop, hro]

end Fill

section ExampleFacts

theorem staleQueue_reachable : Reachable staleQueue :=
  Reachable.pop _ staleQueue
    (Reachable.push _ _ 2 2
      (Reachable.push (new 2) _ 1 1 (Reachable.init 2 (by decide)) rfl) rfl) rfl

theorem sampleQueue_eq :
    pushAll (new 1) [(1, 5), (2, 3), (3, 3), (4, 1)] = .ok sampleQueue := by
  obtain ⟨q, hq⟩ : ∃ q : minqueue Nat Nat,
      pushAll (new 1) [(1, 5), (2, 3), (3, 3), (4, 1)] = .ok q := ⟨_, rfl⟩
  simp only [sampleQueue, hq]

theorem sampleQueue_reachable : Reachable sampleQueue :=
  pushAll_reachable [(1, 5), (2, 3), (3, 3), (4, 1)] (new 1) sampleQueue
    (Reachable.init 1 (by decide)) sampleQueue_eq

theorem oneQueue_counted : Counted oneQueue 1 0 :=
  Counted.pushNew (new 1) oneQueue 1 5 0 0 (Counted.init 1 (by decide)) (by decide) rfl

end ExampleFacts

section Claims
variable {K V : Type} [LinearOrder K] [LinearOrder V] [Inhabited K] [Inhabited V]

/-- C1. Extraction order: pairs with pairwise distinct keys, pushed one by one
with `pushinorder` into the empty queue built by the capacity-only constructor
with a capacity of at least one, are all accepted, and the loop that reads
`minfront`, `minvalue` and calls `minpop` until `empty` holds returns exactly
the pushed pairs, each once, in ascending order of value, ties broken by
ascending key. -/
theorem C1_extraction_order (capacity : Nat) (hc : 1 ≤ capacity) (l : List (K × V))
    (hl : (l.map Prod.fst).Nodup) :
    ∃ q out, pushAll (new capacity) l = .ok q ∧ drain q.size q = some out ∧
      out.Perm l ∧ out.Sorted pairLE := by
  obtain ⟨q, hq, hg, ho, hperm⟩ := pushAll_spec l (new capacity) (new_good capacity hc)
    (new_ordered capacity) hl (by intro k _; simp [liveKeys, live, new])
  obtain ⟨out, hout, hp, hs⟩ := drain_spec q.size q hg ho rfl
  refine ⟨q, out, hq, hout, hp.trans (hperm.trans ?_), hs⟩
  simp [pairs, live, new]

theorem C1_extraction_order_witness :
    1 ≤ 1 ∧ (([(1, 5), (2, 3), (3, 3), (4, 1)] : List (Nat × Nat)).map Prod.fst).Nodup ∧
    ∃ q out, pushAll (new 1) ([(1, 5), (2, 3), (3, 3), (4, 1)] : List (Nat × Nat)) = .ok q ∧
      drain q.size q = some out ∧ out.Perm [(1, 5), (2, 3), (3, 3), (4, 1)] ∧
      out.Sorted pairLE :=
  ⟨by decide, by decide, C1_extraction_order 1 (by decide) _ (by decide)⟩

/-- C2. Update in place fails on a reachable state: after
`q(2); pushinorder(1,1); pushinorder(2,2); minpop();` key 2 is live with value
2, and `pushinorder(2,0)` returns with the live entry of key 2 still carrying
value 2, which `minvalue` then reports. -/
theorem C2_update_lost :
    Reachable staleQueue ∧ 2 ∈ liveKeys staleQueue ∧
    pushinorder staleQueue 2 0 = .ok staleQueueUpdated ∧
    live staleQueueUpdated = [⟨2, 2⟩] ∧
    minfront staleQueueUpdated = .ok 2 staleQueueUpdated ∧
    minvalue staleQueueUpdated = .ok 2 staleQueueUpdated :=
  ⟨staleQueue_reachable, by decide, rfl, rfl, rfl, rfl⟩

/-- C3. Index consistency fails on a reachable state: after
`q(2); pushinorder(1,1); pushinorder(2,2); minpop();` the live key 2 sits in
slot 0 while its record names slot 1, which is not below `size = 1`. -/
theorem C3_index_stale :
    Reachable staleQueue ∧ staleQueue.size = 1 ∧ (entry staleQueue 0).key = 2 ∧
    staleQueue.positionMap 2 = some 1 ∧ ¬ IndexRecorded staleQueue := by
  refine ⟨staleQueue_reachable, rfl, rfl, rfl, ?_⟩
  intro h
  obtain ⟨p, hp, hlt, -⟩ := h 2 (by decide)
  have h1 : staleQueue.positionMap 2 = some 1 := rfl
  rw [h1] at hp
  have h2 : staleQueue.size = 1 := rfl
  have := Option.some.inj hp
  omega

/-- C4. Heap invariant: in every state reachable from the capacity-only
constructor (capacity at least one) by `pushinorder` and `minpop`, each live
slot `i > 0` has a parent `(i - 1) / 2` whose value is not greater and, with
equal values, whose key is not greater. -/
theorem C4_heap_invariant (q : minqueue K V) (h : Reachable q) : HeapOrdered q :=
  (reachable_inv h).2

theorem C4_heap_invariant_witness : Reachable sampleQueue ∧ HeapOrdered sampleQueue :=
  ⟨sampleQueue_reachable, C4_heap_invariant sampleQueue sampleQueue_reachable⟩

/-- C5. On a reachable state that is not empty `minpop` returns; the live
entries before are the entry of slot 0 and the live entries after; that entry
precedes or equals every remaining one; and its key has no record any more. -/
theorem C5_minpop_removes_min (q : minqueue K V) (h : Reachable q) (hne : q.size ≠ 0) :
    ∃ q', minpop q = .ok () q' ∧ (entry q 0 :: live q').Perm (live q) ∧
      (∀ d, d ∈ live q' → precedesEq (entry q 0) d) ∧
      q'.positionMap (entry q 0).key = none := by
  obtain ⟨hg, ho⟩ := reachable_inv h
  obtain ⟨q', hpop, -, -, -, hperm, hrec⟩ := minpop_spec hg ho (by omega)
  refine ⟨q', hpop, (List.perm_append_singleton _ _).symm.trans hperm, ?_, hrec⟩
  intro d hd
  have hd' : d ∈ live q := hperm.mem_iff.1 (List.mem_append_left _ hd)
  obtain ⟨i, hi, rfl⟩ := (mem_live_iff hg.size_le d).1 hd'
  exact (precedesEq_iff_rank _ _).2 (root_min ho i hi)

theorem C5_minpop_removes_min_witness :
    Reachable sampleQueue ∧ sampleQueue.size ≠ 0 ∧
    ∃ q', minpop sampleQueue = .ok () q' ∧ (entry sampleQueue 0 :: live q').Perm (live sampleQueue) ∧
      (∀ d, d ∈ live q' → precedesEq (entry sampleQueue 0) d) ∧
      q'.positionMap (entry sampleQueue 0).key = none :=
  ⟨sampleQueue_reachable, by decide,
    C5_minpop_removes_min sampleQueue sampleQueue_reachable (by decide)⟩

/-- C6. On a reachable state that is not empty `minfront` and `minvalue`
return the key and the value of one live entry, which precedes or equals every
live entry; `top` returns that key with that value; and each of the three
returns with the state it was called on. -/
theorem C6_peek_minimum (q : minqueue K V) (h : Reachable q) (hne : q.size ≠ 0) :
    ∃ d, d ∈ live q ∧ minfront q = .ok d.key q ∧ minvalue q = .ok d.value q ∧
      top q = .ok (d.key, d.value) q ∧ ∀ d', d' ∈ live q → precedesEq d d' := by
  obtain ⟨hg, ho⟩ := reachable_inv h
  have hget0 := getElem?_of_lt (q := q) (i := 0) hg.length_pos
  refine ⟨entry q 0, (mem_live_iff hg.size_le _).2 ⟨0, by omega, rfl⟩, ?_, ?_, ?_, ?_⟩
  · simp [minfront, empty, hne, hget0]
  · simp [minvalue, empty, hne, hget0]
  · simp [top, empty, hne, hget0]
  · intro d' hd'
    obtain ⟨i, hi, rfl⟩ := (mem_live_iff hg.size_le d').1 hd'
    exact (precedesEq_iff_rank _ _).2 (root_min ho i hi)

theorem C6_peek_minimum_witness :
    Reachable staleQueue ∧ staleQueue.size ≠ 0 ∧
    ∃ d, d ∈ live staleQueue ∧ minfront staleQueue = .ok d.key staleQueue ∧
      minvalue staleQueue = .ok d.value staleQueue ∧
      top staleQueue = .ok (d.key, d.value) staleQueue ∧
      ∀ d', d' ∈ live staleQueue → precedesEq d d' :=
  ⟨staleQueue_reachable, by decide,
    C6_peek_minimum staleQueue staleQueue_reachable (by decide)⟩

/-- C7. Each of `minfront`, `minvalue`, `minpop` and `top` throws the
`logic_error` exactly when `size` is zero, the state at the throw is the state
the call started from, and all four throw on a queue fresh from the
capacity-only constructor. -/
theorem C7_empty_errors (q : minqueue K V) (capacity : Nat) :
    ((∃ q', minfront q = .logicError q') ↔ q.size = 0) ∧
    ((∃ q', minvalue q = .logicError q') ↔ q.size = 0) ∧
    ((∃ q', minpop q = .logicError q') ↔ q.size = 0) ∧
    ((∃ q', top q = .logicError q') ↔ q.size = 0) ∧
    (∀ q', minfront q = .logicError q' → q' = q) ∧
    (∀ q', minvalue q = .logicError q' → q' = q) ∧
    (∀ q', minpop q = .logicError q' → q' = q) ∧
    (∀ q', top q = .logicError q' → q' = q) ∧
    minfront (new capacity : minqueue K V) = .logicError (new capacity) ∧
    minvalue (new capacity : minqueue K V) = .logicError (new capacity) ∧
    minpop (new capacity : minqueue K V) = .logicError (new capacity) ∧
    top (new capacity : minqueue K V) = .logicError (new capacity) := by
  refine ⟨?_, ?_, ?_, ?_, ?_, ?_, ?_, ?_, rfl, rfl, rfl, rfl⟩
  all_goals
    by_cases h0 : q.size = 0
    · simp [minfront, minvalue, minpop, top, empty, h0]
    · simp only [minfront, minvalue, minpop, top, empty, if_neg h0]
      (repeat' split) <;> simp_all

/-- C8. With capacity zero the growth step `resize(size * 2)` leaves the
vector empty, and the first `pushinorder` writes slot 0 outside the vector. -/
theorem C8_capacity_zero (k : K) (v : V) :
    pushinorder (new 0 : minqueue K V) k v = .error .outOfBounds := by
  simp [pushinorder, new, resize]

/-- C9. On a reachable state, pushing a key that is not in the queue returns,
the live entries afterwards are the old ones and the new pair, and every entry
that was live is still live with its value. -/
theorem C9_insert_new (q : minqueue K V) (h : Reachable q) (k : K) (v : V)
    (hk : k ∉ liveKeys q) :
    ∃ q', pushinorder q k v = .ok q' ∧ (live q').Perm (⟨k, v⟩ :: live q) ∧
      ∀ d, d ∈ live q → d ∈ live q' := by
  obtain ⟨hg, ho⟩ := reachable_inv h
  obtain ⟨q', hp, -, -, -, hperm⟩ := push_new hg ho k v ((record_none_iff hg k).2 hk)
  exact ⟨q', hp, hperm, fun d hd => hperm.mem_iff.2 (List.mem_cons_of_mem _ hd)⟩

theorem C9_insert_new_witness :
    Reachable staleQueue ∧ 1 ∉ liveKeys staleQueue ∧
    ∃ q', pushinorder staleQueue 1 7 = .ok q' ∧ (live q').Perm (⟨1, 7⟩ :: live staleQueue) ∧
      ∀ d, d ∈ live staleQueue → d ∈ live q' :=
  ⟨staleQueue_reachable, by decide,
    C9_insert_new staleQueue staleQueue_reachable 1 7 (by decide)⟩

/-- C10. Size accounting on the states reachable from a capacity of at least
one: `pushinorder` of a key not in the queue returns with `size` one larger,
`pushinorder` of a key in the queue returns with `size` unchanged, a `minpop`
that returns leaves `size` one smaller (and it returns whenever `size` is not
zero), `empty` is true exactly when `size` is zero, `size` is the number of
new-key pushes minus the number of returned `minpop` calls, and so `empty` is
true exactly when the two numbers are equal. -/
theorem C10_size_accounting (q : minqueue K V) (inserts pops : Nat)
    (h : Counted q inserts pops) :
    (∀ k v, k ∉ liveKeys q → ∃ q', pushinorder q k v = .ok q' ∧ q'.size = q.size + 1) ∧
    (∀ k v, k ∈ liveKeys q → ∃ q', pushinorder q k v = .ok q' ∧ q'.size = q.size) ∧
    (∀ q', minpop q = .ok () q' → q'.size + 1 = q.size) ∧
    (q.size ≠ 0 → ∃ q', minpop q = .ok () q') ∧
    (empty q = true ↔ q.size = 0) ∧
    q.size + pops = inserts ∧
    (empty q = true ↔ inserts = pops) := by
  have hcount : ∀ (q : minqueue K V) (i p : Nat), Counted q i p → q.size + p = i := by
    intro q i p hc
    induction hc with
    | init c hc => simp [new]
    | pushNew q q' k v i p hc hk hp ih =>
      obtain ⟨hg, ho⟩ := reachable_inv (counted_reachable hc)
      obtain ⟨q'', hp', -, -, hsz, -⟩ := push_new hg ho k v ((record_none_iff hg k).2 hk)
      rw [hp] at hp'; cases hp'
      omega
    | pushOld q q' k v i p hc hk hp ih =>
      obtain ⟨hg, ho⟩ := reachable_inv (counted_reachable hc)
      have hne : q.positionMap k ≠ none := (hg.dom k).2 hk
      obtain ⟨pos, hpos⟩ := Option.ne_none_iff_exists'.1 hne
      obtain ⟨q'', hp', -, -, hsz, -⟩ := push_update hg ho k v hpos
      rw [hp] at hp'; cases hp'
      omega
    | pop q q' i p hc hp ih =>
      obtain ⟨hg, ho⟩ := reachable_inv (counted_reachable hc)
      have hpos := minpop_size_pos hp
      obtain ⟨q'', hp', -, -, hsz, -⟩ := minpop_spec hg ho hpos
      rw [hp] at hp'; cases hp'
      omega
  obtain ⟨hg, ho⟩ := reachable_inv (counted_reachable h)
  have hsum := hcount q inserts pops h
  have hempty : empty q = true ↔ q.size = 0 := by
    by_cases h0 : q.size = 0 <;> simp [empty, h0]
  refine ⟨?_, ?_, ?_, ?_, hempty, hsum, ?_⟩
  · intro k v hk
    obtain ⟨q', hp, -, -, hsz, -⟩ := push_new hg ho k v ((record_none_iff hg k).2 hk)
    exact ⟨q', hp, hsz⟩
  · intro k v hk
    have hne : q.positionMap k ≠ none := (hg.dom k).2 hk
    obtain ⟨pos, hpos⟩ := Option.ne_none_iff_exists'.1 hne
    obtain ⟨q', hp, -, -, hsz, -⟩ := push_update hg ho k v hpos
    exact ⟨q', hp, hsz⟩
  · intro q' hp
    have hpos := minpop_size_pos hp
    obtain ⟨q'', hp', -, -, hsz, -⟩ := minpop_spec hg ho hpos
    rw [hp] at hp'; cases hp'
    omega
  · intro hne
    obtain ⟨q', hp, -⟩ := minpop_spec hg ho (by omega)
    exact ⟨q', hp⟩
  · rw [hempty]; omega

theorem C10_size_accounting_witness :
    Counted oneQueue 1 0 ∧
    ((∀ k v, k ∉ liveKeys oneQueue →
        ∃ q', pushinorder oneQueue k v = .ok q' ∧ q'.size = oneQueue.size + 1) ∧
    (∀ k v, k ∈ liveKeys oneQueue →
        ∃ q', pushinorder oneQueue k v = .ok q' ∧ q'.size = oneQueue.size) ∧
    (∀ q', minpop oneQueue = .ok () q' → q'.size + 1 = oneQueue.size) ∧
    (oneQueue.size ≠ 0 → ∃ q', minpop oneQueue = .ok () q') ∧
    (empty oneQueue = true ↔ oneQueue.size = 0) ∧
    oneQueue.size + 0 = 1 ∧
    (empty oneQueue = true ↔ 1 = 0)) :=
  ⟨oneQueue_counted, C10_size_accounting oneQueue 1 0 oneQueue_counted⟩

end Claims

section ExampleFacts2

theorem staleQueue3_reachable : Reachable staleQueue3 :=
  Reachable.push staleQueue staleQueue3 3 5 staleQueue_reachable rfl

theorem halfQueue_reachable : Reachable halfQueue :=
  Reachable.push (new 2) halfQueue 1 1 (Reachable.init 2 (by decide)) rfl

end ExampleFacts2

section Claims2
variable {K V : Type} [LinearOrder K] [LinearOrder V] [Inhabited K] [Inhabited V]

/-- C11. A no-op update changes the extraction order on a reachable state:
after `q(2); pushinorder(1,1); pushinorder(2,2); minpop(); pushinorder(3,5);`
key 2 is live with value 2 and the queue drains as `(2,2), (3,5)`; after
`pushinorder(2,2)` it drains as `(2,2), (3,2)`, because the write went to the
slot of key 3 that the stale record of key 2 names. -/
theorem C11_noop_update_changes_order :
    Reachable staleQueue3 ∧ (⟨2, 2⟩ : Data Nat Nat) ∈ live staleQueue3 ∧
    pushinorder staleQueue3 2 2 = .ok staleQueue3Updated ∧
    drain staleQueue3.size staleQueue3 = some [(2, 2), (3, 5)] ∧
    drain staleQueue3Updated.size staleQueue3Updated = some [(2, 2), (3, 2)] :=
  ⟨staleQueue3_reachable, by decide, rfl, by decide, by decide⟩

/-- C12. Bulk construction from a non-empty strictly ascending key list: the
fill constructor returns a queue whose `size` is the number of keys and whose
vector holds the keys in input order, each with the initial value; the heap
invariant and index consistency hold; and as many rounds of `minfront` and
`minpop` as there are keys return the keys in input order and leave the queue
empty. -/
theorem C12_bulk_construction (keys : List K) (v0 : V) (hne : keys ≠ [])
    (hs : keys.Sorted (fun a b => a < b)) :
    ∃ q, fill keys v0 = .ok q ∧ q.size = keys.length ∧
      q.heap = keys.map (fun k => (⟨k, v0⟩ : Data K V)) ∧
      HeapOrdered q ∧ IndexConsistent q ∧
      ∃ q', rounds keys.length q = some (keys, q') ∧ empty q' = true := by
  obtain ⟨q, hq, hsz, hheap, hmap, hidx⟩ := fill_spec keys v0
  have hnd : keys.Nodup := hs.imp (fun h => ne_of_lt h)
  have hlen : q.heap.length = keys.length := by rw [hheap]; simp
  have hent : ∀ j k, keys[j]? = some k → entry q j = ⟨k, v0⟩ := by
    intro j k hj
    simp [entry, hheap, hj]
  have hkey : ∀ j, j < keys.length → ∃ k, keys[j]? = some k := by
    intro j hj
    exact ⟨keys[j], List.getElem?_eq_getElem hj⟩
  have hc : IndexConsistent q := by
    intro j hj
    obtain ⟨k, hk⟩ := hkey j (hsz ▸ hj)
    rw [hent j k hk]
    exact hidx hnd j k hk
  have hlive : live q = keys.map (fun k => (⟨k, v0⟩ : Data K V)) := by
    unfold live
    rw [hheap, hsz]
    exact List.take_of_length_le (by simp)
  have hkeys : liveKeys q = keys := by
    unfold liveKeys
    rw [hlive, List.map_map]
    exact List.map_id'' (fun _ => rfl) keys
  have ho : HeapOrdered q := by
    intro j hj0 hj
    rw [hsz] at hj
    obtain ⟨k, hk⟩ := hkey j hj
    obtain ⟨p, hp⟩ := hkey ((j - 1) / 2) (by omega)
    rw [hent j k hk, hent _ p hp]
    refine ⟨lt_irrefl _, fun _ => ?_⟩
    have hpw := List.pairwise_iff_getElem.1 hs ((j - 1) / 2) j (by omega) hj (by omega)
    obtain ⟨_, e1⟩ := List.getElem?_eq_some_iff.1 hk
    obtain ⟨_, e2⟩ := List.getElem?_eq_some_iff.1 hp
    rw [e1, e2] at hpw
    exact le_of_lt hpw
  have hg : Good q := by
    apply good_of_consistent _ (by omega) hc
    · intro k
      rw [hkeys]
      constructor
      · intro h
        by_contra hk
        exact h (hmap k hk)
      · intro hk
        obtain ⟨j, hj⟩ := List.getElem?_of_mem hk
        rw [hidx hnd j k hj]
        simp
    · rw [hlen]
      exact List.length_pos.2 hne
  obtain ⟨out, q', hdr, hro, hq'⟩ := rounds_spec keys.length q hg ho hsz
  obtain ⟨out', hdr', hperm, hsorted⟩ := drain_spec keys.length q hg ho hsz
  rw [hdr] at hdr'
  cases hdr'
  have hpairs : pairs q = keys.map (fun k => (k, v0)) := by
    unfold pairs
    rw [hlive, List.map_map]
    rfl
  have hsk : (keys.map (fun k => (k, v0))).Sorted pairLE := by
    unfold List.Sorted
    rw [List.pairwise_map]
    exact hs.imp (fun h => Or.inr ⟨rfl, le_of_lt h⟩)
  have hout : out = keys.map (fun k => (k, v0)) :=
    @List.eq_of_perm_of_sorted _ pairLE ⟨pairLE_antisymm⟩ _ _ (hpairs ▸ hperm) hsorted hsk
  refine ⟨q, hq, hsz, hheap, ho, hc, q', ?_, by simp [empty, hq']⟩
  rw [hro, hout, List.map_map]
  congr 2
  exact List.map_id'' (fun _ => rfl) keys

theorem C12_bulk_construction_witness :
    ([1, 2, 3] : List Nat) ≠ [] ∧ ([1, 2, 3] : List Nat).Sorted (fun a b => a < b) ∧
    ∃ q, fill ([1, 2, 3] : List Nat) (0 : Nat) = .ok q ∧ q.size = [1, 2, 3].length ∧
      q.heap = [1, 2, 3].map (fun k => (⟨k, 0⟩ : Data Nat Nat)) ∧
      HeapOrdered q ∧ IndexConsistent q ∧
      ∃ q', rounds [1, 2, 3].length q = some ([1, 2, 3], q') ∧ empty q' = true :=
  ⟨by decide, by simp, C12_bulk_construction [1, 2, 3] 0 (by decide) (by simp)⟩

/-- C13. In every state reachable from the capacity-only constructor
(capacity at least one) by `pushinorder` and `minpop`, the keys of the live
slots are pairwise distinct, and a key has a record in the map exactly when it
is the key of a live slot. -/
theorem C13_map_domain (q : minqueue K V) (h : Reachable q) :
    (liveKeys q).Nodup ∧ ∀ k, q.positionMap k ≠ none ↔ k ∈ liveKeys q :=
  ⟨(reachable_inv h).1.nodup, (reachable_inv h).1.dom⟩

theorem C13_map_domain_witness :
    Reachable staleQueue ∧ (liveKeys staleQueue).Nodup ∧
    ∀ k, staleQueue.positionMap k ≠ none ↔ k ∈ liveKeys staleQueue :=
  ⟨staleQueue_reachable, C13_map_domain staleQueue staleQueue_reachable⟩

/-- C14. From a state with a vector of at least one slot that holds the live
slots, that satisfies the heap invariant and index consistency (the record of
the key of each live slot names that slot, and the map has records exactly for
the live keys), `pushinorder` of any key with any value returns, and the state
it leaves satisfies the heap invariant and index consistency again. -/
theorem C14_push_preserves_joint_invariant (q : minqueue K V) (k : K) (v : V)
    (hcap : 1 ≤ q.heap.length) (hsz : q.size ≤ q.heap.length) (ho : HeapOrdered q)
    (hc : IndexConsistent q) (hdom : ∀ k', q.positionMap k' ≠ none ↔ k' ∈ liveKeys q) :
    ∃ q', pushinorder q k v = .ok q' ∧ HeapOrdered q' ∧ IndexConsistent q' ∧
      ∀ k', q'.positionMap k' ≠ none ↔ k' ∈ liveKeys q' := by
  have hg := good_of_consistent hcap hsz hc hdom
  cases hk : q.positionMap k with
  | none =>
    obtain ⟨q', hp, hg', ho', -⟩ := push_new hg ho k v hk
    exact ⟨q', hp, ho', pushinorder_consistent hg hc hp, hg'.dom⟩
  | some pos =>
    obtain ⟨q', hp, hg', ho', -⟩ := push_update hg ho k v hk
    exact ⟨q', hp, ho', pushinorder_consistent hg hc hp, hg'.dom⟩

theorem C14_push_preserves_joint_invariant_witness :
    1 ≤ sampleQueue.heap.length ∧ sampleQueue.size ≤ sampleQueue.heap.length ∧
    HeapOrdered sampleQueue ∧ IndexConsistent sampleQueue ∧
    (∀ k', sampleQueue.positionMap k' ≠ none ↔ k' ∈ liveKeys sampleQueue) ∧
    ∃ q', pushinorder sampleQueue 2 0 = .ok q' ∧ HeapOrdered q' ∧ IndexConsistent q' ∧
      ∀ k', q'.positionMap k' ≠ none ↔ k' ∈ liveKeys q' :=
  ⟨by decide, by decide, (reachable_inv sampleQueue_reachable).2, by decide,
    (reachable_inv sampleQueue_reachable).1.dom,
    C14_push_preserves_joint_invariant sampleQueue 2 0 (by decide) (by decide)
      (reachable_inv sampleQueue_reachable).2 (by decide)
      (reachable_inv sampleQueue_reachable).1.dom⟩

/-- C15. On an index-consistent state whose live slots are inside the vector,
for a live slot `i` such that every live slot other than the children of `i`
is preceded or equalled by its parent, and the parent of `i`, if there is one,
precedes or equals the children of `i` : `slideDown(i)` returns, and the state
it leaves satisfies the heap invariant, has the same live entries up to order,
the same `size`, and is index-consistent. -/
theorem C15_slideDown_repairs (q : minqueue K V) (i : Nat) (hsz : q.size ≤ q.heap.length)
    (hc : IndexConsistent q) (hi : i < q.size)
    (h1 : ∀ j, j < q.size → 0 < j → (j - 1) / 2 ≠ i →
      precedesEq (entry q ((j - 1) / 2)) (entry q j))
    (h2 : 0 < i → ∀ c, c < q.size → (c - 1) / 2 = i →
      precedesEq (entry q ((i - 1) / 2)) (entry q c)) :
    ∃ q', slideDown q i = .ok q' ∧ HeapOrdered q' ∧ (live q').Perm (live q) ∧
      q'.size = q.size ∧ IndexConsistent q' := by
  obtain ⟨q', hq', hfr, ho'⟩ := slideDownLoop_repair (q.size + 1) q i (by omega) (by omega)
    (consistent_sane hsz hc) hi
    (fun j hj0 hj hne => (precedesEq_iff_rank _ _).1 (h1 j hj hj0 hne))
    (fun hi0 c _ hc' hcp => (precedesEq_iff_rank _ _).1 (h2 hi0 c hc' hcp))
  exact ⟨q', hq', ho', hfr.perm, hfr.size_eq, (slideDown_keeps hq').2.2 hsz hc⟩

theorem C15_slideDown_repairs_witness :
    tiltedQueue.size ≤ tiltedQueue.heap.length ∧ IndexConsistent tiltedQueue ∧
    0 < tiltedQueue.size ∧
    ∃ q', slideDown tiltedQueue 0 = .ok q' ∧ HeapOrdered q' ∧
      (live q').Perm (live tiltedQueue) ∧ q'.size = tiltedQueue.size ∧ IndexConsistent q' :=
  ⟨by decide, by decide, by decide,
    C15_slideDown_repairs tiltedQueue 0 (by decide) (by decide) (by decide)
      (by decide) (by decide)⟩

/-- C16. On an index-consistent state whose live slots are inside the vector,
for a live slot `i` such that every live slot other than `i` is preceded or
equalled by its parent, and the parent of `i`, if there is one, precedes or
equals the children of `i` : `slideUp(i)` returns, and the state it leaves
satisfies the heap invariant, has the same live entries up to order, the same
`size`, and is index-consistent. -/
theorem C16_slideUp_repairs (q : minqueue K V) (i : Nat) (hsz : q.size ≤ q.heap.length)
    (hc : IndexConsistent q) (hi : i < q.size)
    (h1 : ∀ j, j < q.size → 0 < j → j ≠ i →
      precedesEq (entry q ((j - 1) / 2)) (entry q j))
    (h2 : 0 < i → ∀ c, c < q.size → (c - 1) / 2 = i →
      precedesEq (entry q ((i - 1) / 2)) (entry q c)) :
    ∃ q', slideUp q i = .ok q' ∧ HeapOrdered q' ∧ (live q').Perm (live q) ∧
      q'.size = q.size ∧ IndexConsistent q' := by
  obtain ⟨q', hq', hfr, ho'⟩ := slideUpLoop_repair (i + 1) q i (by omega)
    (consistent_sane hsz hc) hi
    (fun j hj0 hj hne => (precedesEq_iff_rank _ _).1 (h1 j hj hj0 hne))
    (fun hi0 c _ hc' hcp => (precedesEq_iff_rank _ _).1 (h2 hi0 c hc' hcp))
  exact ⟨q', hq', ho', hfr.perm, hfr.size_eq, (slideUp_keeps hq').2.2 hsz hc⟩

theorem C16_slideUp_repairs_witness :
    liftedQueue.size ≤ liftedQueue.heap.length ∧ IndexConsistent liftedQueue ∧
    2 < liftedQueue.size ∧
    ∃ q', slideUp liftedQueue 2 = .ok q' ∧ HeapOrdered q' ∧
      (live q').Perm (live liftedQueue) ∧ q'.size = liftedQueue.size ∧ IndexConsistent q' :=
  ⟨by decide, by decide, by decide,
    C16_slideUp_repairs liftedQueue 2 (by decide) (by decide) (by decide)
      (by decide) (by decide)⟩

/-- C17. On an index-consistent state whose live slots are inside the vector,
`swap(i, j)` of two live slots returns; slot `i` then holds the old entry of
`j` and slot `j` the old entry of `i`; the records of the two keys name their
new slots; every other slot, every other record, the vector length and `size`
are as before; so the state is index-consistent with the same live entries up
to order. -/
theorem C17_swap (q : minqueue K V) (i j : Nat) (hsz : q.size ≤ q.heap.length)
    (hc : IndexConsistent q) (hi : i < q.size) (hj : j < q.size) :
    ∃ q', swap q i j = .ok q' ∧ entry q' i = entry q j ∧ entry q' j = entry q i ∧
      q'.positionMap (entry q j).key = some i ∧ q'.positionMap (entry q i).key = some j ∧
      (∀ n, n ≠ i → n ≠ j → entry q' n = entry q n) ∧
      (∀ k, k ≠ (entry q i).key → k ≠ (entry q j).key →
        q'.positionMap k = q.positionMap k) ∧
      q'.heap.length = q.heap.length ∧ q'.size = q.size ∧
      IndexConsistent q' ∧ (live q').Perm (live q) := by
  have hi' : i < q.heap.length := by omega
  have hj' : j < q.heap.length := by omega
  have hsw := swap_eq_any (q := q) hi' hj'
  have hcq := swap_consistent hsz hc hi hj hsw
  have hei : entry (⟨(q.heap.set i (entry q j)).set j (entry q i),
      Function.update (Function.update q.positionMap (entry q j).key (some i))
        (entry q i).key (some j), q.size⟩ : minqueue K V) i = entry q j := by
    rw [swap_entry hi' hj']
    by_cases e : i = j
    · simp [e]
    · simp [e]
  have hej : entry (⟨(q.heap.set i (entry q j)).set j (entry q i),
      Function.update (Function.update q.positionMap (entry q j).key (some i))
        (entry q i).key (some j), q.size⟩ : minqueue K V) j = entry q i := by
    rw [swap_entry hi' hj']; simp
  refine ⟨_, hsw, hei, hej, ?_, ?_, ?_, ?_, by simp, rfl, hcq, ?_⟩
  · have := hcq i hi
    rwa [hei] at this
  · have := hcq j hj
    rwa [hej] at this
  · intro n hni hnj
    rw [swap_entry hi' hj']; simp [hni, hnj]
  · intro k hki hkj
    simp [Function.update_apply, hki, hkj]
  · rw [live_eq_map (by simpa using hsz), live_eq_map hsz]
    have hfun : (fun n => entry (⟨(q.heap.set i (entry q j)).set j (entry q i),
        Function.update (Function.update q.positionMap (entry q j).key (some i))
          (entry q i).key (some j), q.size⟩ : minqueue K V) n)
        = fun n => entry q (Equiv.swap i j n) := by
      funext n
      rw [swap_entry hi' hj']
      by_cases h1 : n = j
      · subst h1; simp [Equiv.swap_apply_right]
      · by_cases h2 : n = i
        · subst h2; simp [h1, Equiv.swap_apply_left]
        · simp [h1, h2, Equiv.swap_apply_of_ne_of_ne h2 h1]
    show (List.map (fun n => entry _ n) (List.range q.size)).Perm _
    rw [hfun]
    exact perm_map_swap (entry q) q.size i j hi hj

theorem C17_swap_witness :
    tiltedQueue.size ≤ tiltedQueue.heap.length ∧ IndexConsistent tiltedQueue ∧
    0 < tiltedQueue.size ∧ 2 < tiltedQueue.size ∧
    ∃ q', swap tiltedQueue 0 2 = .ok q' ∧ entry q' 0 = entry tiltedQueue 2 ∧
      entry q' 2 = entry tiltedQueue 0 ∧
      q'.positionMap (entry tiltedQueue 2).key = some 0 ∧
      q'.positionMap (entry tiltedQueue 0).key = some 2 ∧
      (∀ n, n ≠ 0 → n ≠ 2 → entry q' n = entry tiltedQueue n) ∧
      (∀ k, k ≠ (entry tiltedQueue 0).key → k ≠ (entry tiltedQueue 2).key →
        q'.positionMap k = tiltedQueue.positionMap k) ∧
      q'.heap.length = tiltedQueue.heap.length ∧ q'.size = tiltedQueue.size ∧
      IndexConsistent q' ∧ (live q').Perm (live tiltedQueue) :=
  ⟨by decide, by decide, by decide, by decide,
    C17_swap tiltedQueue 0 2 (by decide) (by decide) (by decide) (by decide)⟩

end Claims2

section Probe
variable {K V : Type} [LinearOrder K] [LinearOrder V] [Inhabited K] [Inhabited V]

end Probe

section Claims3
variable {K V : Type} [LinearOrder K] [LinearOrder V] [Inhabited K] [Inhabited V]

/-- C19. Termination of the two repair loops on every state and from every
start index: the fuel given by `slideUp` and `slideDown` is never used up, and
any larger amount of fuel gives the same result; the indices that `slideUp`
visits go from each index `a` to `(a - 1) / 2`, which is smaller, and there
are at most `⌊log₂ (i + 1)⌋` swaps; the indices that `slideDown` visits go
from each index `a` to `2 * a + 1` or `2 * a + 2`, which is larger and below
`size`, and there are at most `⌊log₂ size⌋` swaps, fewer than the number of
levels of the heap. -/
theorem C19_repair_loops_terminate (q : minqueue K V) (i : Nat) :
    slideUp q i ≠ .error .outOfFuel ∧ slideDown q i ≠ .error .outOfFuel ∧
    (∀ fuel, i < fuel → slideUpLoop fuel q i = slideUp q i) ∧
    (∀ fuel, q.size < fuel → slideDownLoop fuel q i = slideDown q i) ∧
    dropTrace (slideUpTrace (i + 1) q i) = slideUp q i ∧
    dropTrace (slideDownTrace (q.size + 1) q i) = slideDown q i ∧
    (∀ q' path, slideUpTrace (i + 1) q i = .ok (q', path) →
      List.Chain (fun a b => b = (a - 1) / 2 ∧ b < a) i path ∧
      path.length ≤ Nat.log 2 (i + 1)) ∧
    (∀ q' path, slideDownTrace (q.size + 1) q i = .ok (q', path) →
      List.Chain (fun a b => (b = 2 * a + 1 ∨ b = 2 * a + 2) ∧ a < b ∧ b < q.size) i path ∧
      path.length ≤ Nat.log 2 q.size ∧ path.length < levels q.size) := by
  refine ⟨slideUpLoop_ne_fuel (i + 1) q i (by omega),
    slideDownLoop_ne_fuel (q.size + 1) q i (by omega) (by omega),
    fun fuel h => slideUpLoop_enough fuel h, fun fuel h => slideDownLoop_enough fuel h,
    slideUpTrace_drop (i + 1) q i, slideDownTrace_drop (q.size + 1) q i, ?_, ?_⟩
  · intro q' path h
    obtain ⟨c1, c2⟩ := slideUpTrace_path (i + 1) q q' i path h
    exact ⟨c1, Nat.le_log_of_pow_le (by decide) c2⟩
  · intro q' path h
    obtain ⟨c1, c2, c3⟩ := slideDownTrace_path (q.size + 1) q q' i path h
    have hlog : path.length ≤ Nat.log 2 q.size := by
      by_cases hi : i < q.size
      · exact trace_length_le_log (c3 hi)
      · rw [c2 (not_lt.mp hi)]; exact Nat.zero_le _
    exact ⟨c1, hlog, by unfold levels; omega⟩

/-- C20. Array accesses stay inside the vector on every reachable state:
`size` is at most the vector length, every record of the map names a slot of
the vector, `pushinorder` returns for every key and value and does not shorten
the vector, `minpop` returns with the same vector length when the queue is not
empty and throws when it is, and `minfront`, `minvalue` and `top` never fault.
In the embedding every read or write of `heap[...]` outside the vector, in
these methods or in `slideUp`, `slideDown`, `getIndexMin` and `swap` called
from them, makes the public call a fault, so no such access happens. -/
theorem C20_accesses_in_bounds (q : minqueue K V) (h : Reachable q) :
    q.size ≤ q.heap.length ∧
    (∀ k p, q.positionMap k = some p → p < q.heap.length) ∧
    (∀ k v, ∃ q', pushinorder q k v = .ok q' ∧ q.heap.length ≤ q'.heap.length) ∧
    (q.size ≠ 0 → ∃ q', minpop q = .ok () q' ∧ q'.heap.length = q.heap.length) ∧
    (q.size = 0 → minpop q = .logicError q) ∧
    (∀ f, minfront q ≠ .fault f) ∧ (∀ f, minvalue q ≠ .fault f) ∧
    (∀ f, top q ≠ .fault f) := by
  obtain ⟨hg, ho⟩ := reachable_inv h
  have hget0 := getElem?_of_lt (q := q) (i := 0) hg.length_pos
  refine ⟨hg.size_le, hg.records, ?_, ?_, ?_, ?_, ?_, ?_⟩
  · intro k v
    cases hk : q.positionMap k with
    | none =>
      obtain ⟨q', hp, -⟩ := push_new hg ho k v hk
      exact ⟨q', hp, pushinorder_length hp⟩
    | some pos =>
      obtain ⟨q', hp, -⟩ := push_update hg ho k v hk
      exact ⟨q', hp, pushinorder_length hp⟩
  · intro hne
    obtain ⟨q', hp, -⟩ := minpop_spec hg ho (by omega)
    exact ⟨q', hp, minpop_length hp⟩
  · intro h0
    simp [minpop, empty, h0]
  · intro f
    simp only [minfront, hget0]
    split <;> simp
  · intro f
    simp only [minvalue, hget0]
    split <;> simp
  · intro f
    simp only [top, hget0]
    split <;> simp

theorem C20_accesses_in_bounds_witness :
    Reachable staleQueue3 ∧
    (staleQueue3.size ≤ staleQueue3.heap.length ∧
    (∀ k p, staleQueue3.positionMap k = some p → p < staleQueue3.heap.length) ∧
    (∀ k v, ∃ q', pushinorder staleQueue3 k v = .ok q' ∧
      staleQueue3.heap.length ≤ q'.heap.length) ∧
    (staleQueue3.size ≠ 0 →
      ∃ q', minpop staleQueue3 = .ok () q' ∧ q'.heap.length = staleQueue3.heap.length) ∧
    (staleQueue3.size = 0 → minpop staleQueue3 = .logicError staleQueue3) ∧
    (∀ f, minfront staleQueue3 ≠ .fault f) ∧ (∀ f, minvalue staleQueue3 ≠ .fault f) ∧
    (∀ f, top staleQueue3 ≠ .fault f)) :=
  ⟨staleQueue3_reachable, C20_accesses_in_bounds staleQueue3 staleQueue3_reachable⟩

end Claims3

end Minqueue
